import Mathlib

/-!
Verification of the value-marshaling convention of the lua-utils repository.

The repository consists of Lua binding layers (glua-json, glua-sprig,
glua-strings, glua-runes).  Script-level dynamic values are modelled by the
inductive type LV below; each binding function is embedded as a Lean
function over LV (and over explicit oracles standing for the wrapped native
library calls).  The glua-json module ships only its tests in this tree, so
its encoder/decoder are modelled from the specification text and pinned to
the error strings and behaviours the tests in json_test.go assert.
-/

/-- Dynamic Value: the tagged union of the embedded scripting language
(spec section 3): nil, boolean, number, string, and table, an ordered list
of key-value entries.  A Number is a double-precision float; a double is
represented here by its decimal rendering, the pair m and e denoting the
value m times 10 to the power -e (e = 0 is an integer such as 42, while
num 314 2 is 3.14).  Every double corresponds injectively to its minimal
decimal rendering (the IEEE shortest-representation round-trip guarantee),
so this decimal model covers integer and non-integer Numbers alike;
binary rounding behaviour of double arithmetic, and the exponent-form
renderings the native encoder uses only for magnitudes at least 1e21 or
below 1e-6, are outside the embedding. -/
inductive LV where
  | nil
  | bool (b : Bool)
  | num (m : Int) (e : Nat)
  | str (s : String)
  | table (kvs : List (LV × LV))
deriving Repr

namespace GluaJson

/-- Decimal digit test on a character, by code point (48-57). -/
def isDig (c : Char) : Bool := 48 ≤ c.toNat && c.toNat ≤ 57

/-- Numeric value of a decimal digit character. -/
def digVal (c : Char) : Nat := c.toNat - 48

/-- Big-endian decimal digits of a natural number; the fuel dominates the
number of digits. -/
def natCharsAux : Nat → Nat → List Char
  | 0, _ => []
  | fuel + 1, n =>
    if n < 10 then [Nat.digitChar n]
    else natCharsAux fuel (n / 10) ++ [Nat.digitChar (n % 10)]

/-- Modelled from the spec: section 4.3 step 3, an integer Number renders
without a fractional part, as its minimal decimal representation. -/
def natChars (n : Nat) : List Char := natCharsAux (n + 1) n

/-- Decimal rendering of an integer, with a leading minus sign when
negative. -/
def intChars (n : Int) : List Char :=
  if n < 0 then '-' :: natChars n.natAbs else natChars n.natAbs

/-- Digits padded with leading zeros so that at least one digit precedes
the decimal point when e fraction digits are split off. -/
def padDigits (ds : List Char) (e : Nat) : List Char :=
  List.replicate (e + 1 - ds.length) '0' ++ ds

/-- Modelled from the spec: section 4.3 step 3, Number rendering: an
integer Number (e = 0) renders without a fractional part; a non-integer
renders with a decimal point and its e fraction digits, which is the
minimal decimal representation whenever the significand carries no
trailing zero (as every minimal rendering of a double does). -/
def decChars (m : Int) (e : Nat) : List Char :=
  if e = 0 then intChars m
  else
    let ds := padDigits (natChars m.natAbs) e
    (if m < 0 then ['-'] else []) ++
      (ds.take (ds.length - e) ++ '.' :: ds.drop (ds.length - e))

/-- Modelled from the spec: section 4.3 step 4, standard escaping of a
string character; the quote and the backslash are escaped (control-character
escape sequences are not modelled, no claim depends on them). -/
def escapeChar (c : Char) : List Char :=
  if c = '"' then ['\\', '"'] else if c = '\\' then ['\\', '\\'] else [c]

/-- Escape every character of a string body. -/
def escString : List Char → List Char
  | [] => []
  | c :: l => escapeChar c ++ escString l

/-- Quoted, escaped JSON string literal for a Lua string. -/
def encStr (s : String) : List Char := '"' :: (escString s.data ++ ['"'])

/-- Key shape of a table, spec section 4.3 step 5a: pure-integer-sequential,
pure-string, or mixed/invalid, the latter split into the sparse-array and
mixed-key-types error kinds of step 5d. -/
inductive KeyShape where
  | arr
  | obj
  | sparse
  | mixed
deriving Repr, DecidableEq

/-- Checks that the keys of the entries are exactly the integers i, i+1, ...
in order. -/
def arrKeysFrom : Int → List (LV × LV) → Bool
  | _, [] => true
  | i, (k, _) :: rest =>
    (match k with | .num m 0 => m = i | _ => false) && arrKeysFrom (i + 1) rest

/-- Checks that every key is a string. -/
def allStrKeys (kvs : List (LV × LV)) : Bool :=
  kvs.all (fun kv => match kv.1 with | .str _ => true | _ => false)

/-- Checks that every key is an integer number. -/
def allIntKeys (kvs : List (LV × LV)) : Bool :=
  kvs.all (fun kv => match kv.1 with | .num _ 0 => true | _ => false)

/-- Modelled from the spec: section 4.3 step 5a/5d, the key-shape scan: keys
exactly 1..N make an array (N = 0 included), all-string keys make an object,
all-integer keys otherwise are a sparse array, anything else is
mixed/invalid. -/
def classify (kvs : List (LV × LV)) : KeyShape :=
  if arrKeysFrom 1 kvs then .arr
  else if allStrKeys kvs then .obj
  else if allIntKeys kvs then .sparse
  else .mixed

/-- Comma-join a list of already encoded fragments. -/
def joinComma : List (List Char) → List Char
  | [] => []
  | [s] => s
  | s :: rest => s ++ ',' :: joinComma rest

/-- Encoded form of an object key; the classification guarantees the key is
a string when this is used. -/
def keyChars : LV → List Char
  | .str s => encStr s
  | _ => []

mutual

/-- Modelled from the spec: section 4.3, the encoder of the glua-json
module, whose implementation file is not part of this tree (only its tests
are).  Nil, booleans, numbers and strings become the corresponding JSON
literals; a table is classified by key shape and becomes an array or an
object, or fails with the error strings asserted by json_test.go
(cannot encode sparse array / mixed or invalid key types). -/
def encodeVal : LV → Except String (List Char)
  | .nil => .ok "null".data
  | .bool true => .ok "true".data
  | .bool false => .ok "false".data
  | .num m e => .ok (decChars m e)
  | .str s => .ok (encStr s)
  | .table kvs =>
    match classify kvs with
    | .arr =>
      match encodeArrItems kvs with
      | .error e => .error e
      | .ok ss => .ok ('[' :: (joinComma ss ++ [']']))
    | .obj =>
      match encodeObjItems kvs with
      | .error e => .error e
      | .ok ss => .ok ('{' :: (joinComma ss ++ ['}']))
    | .sparse => .error "cannot encode sparse array"
    | .mixed => .error "cannot encode mixed or invalid key types"

/-- Encodes the values of array entries, in index order. -/
def encodeArrItems : List (LV × LV) → Except String (List (List Char))
  | [] => .ok []
  | (_, v) :: rest =>
    match encodeVal v with
    | .error e => .error e
    | .ok s =>
      match encodeArrItems rest with
      | .error e => .error e
      | .ok ss => .ok (s :: ss)

/-- Encodes object entries as quoted-key colon value fragments, in table
order. -/
def encodeObjItems : List (LV × LV) → Except String (List (List Char))
  | [] => .ok []
  | (k, v) :: rest =>
    match encodeVal v with
    | .error e => .error e
    | .ok s =>
      match encodeObjItems rest with
      | .error e => .error e
      | .ok ss => .ok ((keyChars k ++ ':' :: s) :: ss)

end

/-- Top-level encode: Dynamic Value to serialized text (spec section 4.3). -/
def Encode (v : LV) : Except String String :=
  match encodeVal v with
  | .ok cs => .ok ⟨cs⟩
  | .error e => .error e

mutual

/-- The hypothesis of the round-trip claim: every table of the tree is
pure-array (keys exactly 1..N) or pure-object (all string keys). -/
def isValidB : LV → Bool
  | .nil => true
  | .bool _ => true
  | .num _ _ => true
  | .str _ => true
  | .table kvs => (arrKeysFrom 1 kvs || allStrKeys kvs) && entriesValidB kvs

/-- All entry values of a table are valid trees. -/
def entriesValidB : List (LV × LV) → Bool
  | [] => true
  | (_, v) :: rest => isValidB v && entriesValidB rest

end

/-- Modelled from the spec: section 4.4, the generic tree produced by the
delegated standard parser: null, bool, number, string, list, map - plus the
arbitrary-precision Number variant (jnum) that a decoder configured for
arbitrary precision produces, carrying the exact source text. -/
inductive GoJSON where
  | null
  | bool (b : Bool)
  | num (m : Int) (e : Nat)
  | jnum (s : String)
  | str (s : String)
  | arr (items : List GoJSON)
  | obj (kvs : List (String × GoJSON))
deriving Repr

/-- Array entries as 1-based sequential integer keys, spec section 4.4. -/
def arrEntriesFrom (i : Int) : List LV → List (LV × LV)
  | [] => []
  | v :: rest => (.num i 0, v) :: arrEntriesFrom (i + 1) rest

mutual

/-- Modelled from the spec: section 4.4, the tree walk converting the
generic parsed tree to Dynamic Values; an arbitrary-precision number is
converted to its string representation, never to a Number (the asymmetry
pinned by TestDecodeValueJSONNumber). -/
def DecodeValue : GoJSON → LV
  | .null => .nil
  | .bool b => .bool b
  | .num m e => .num m e
  | .jnum s => .str s
  | .str s => .str s
  | .arr items => .table (decodeArrEntries 1 items)
  | .obj kvs => .table (decodeObjEntries kvs)

/-- List items become table entries with 1-based sequential integer keys. -/
def decodeArrEntries (i : Int) : List GoJSON → List (LV × LV)
  | [] => []
  | g :: rest => (.num i 0, DecodeValue g) :: decodeArrEntries (i + 1) rest

/-- Map items become table entries with string keys, in enumeration
order. -/
def decodeObjEntries : List (String × GoJSON) → List (LV × LV)
  | [] => []
  | (k, g) :: rest => (.str k, DecodeValue g) :: decodeObjEntries rest

end

/-- Consumes the decimal digits at the head of the input, accumulating their
value; stops at the first non-digit. -/
def parseNatAcc : Nat → List Char → Nat × List Char
  | acc, [] => (acc, [])
  | acc, c :: l => if isDig c then parseNatAcc (acc * 10 + digVal c) l else (acc, c :: l)

/-- Unescapes the character following a backslash in a string literal. -/
def unescape (e : Char) : Option Char :=
  if e = '"' then some '"'
  else if e = '\\' then some '\\'
  else if e = '/' then some '/'
  else if e = 'n' then some '\n'
  else if e = 't' then some '\t'
  else if e = 'r' then some '\r'
  else if e = 'b' then some '\x08'
  else if e = 'f' then some '\x0c'
  else none

/-- Parses the body of a string literal after the opening quote, with a
reversed accumulator, up to the closing quote. -/
def parseStrBody : List Char → List Char → Option (String × List Char)
  | [], _ => none
  | c :: l, acc =>
    if c = '"' then some (⟨acc.reverse⟩, l)
    else if c = '\\' then
      match l with
      | [] => none
      | e :: l' =>
        match unescape e with
        | some u => parseStrBody l' (u :: acc)
        | none => none
    else parseStrBody l (c :: acc)

/-- Consumes fraction digits after the decimal point, tracking their
count; stops at the first non-digit. -/
def parseFracAcc : Nat → Nat → List Char → Nat × Nat × List Char
  | acc, cnt, [] => (acc, cnt, [])
  | acc, cnt, c :: l =>
    if isDig c then parseFracAcc (acc * 10 + digVal c) (cnt + 1) l
    else (acc, cnt, c :: l)

/-- Continuation after the integer digits of a numeric literal: a decimal
point followed by at least one digit extends the literal with fraction
digits, anything else ends an integer literal; neg records a leading
minus sign. -/
def parseNumTail (neg : Bool) (n1 : Nat) (l : List Char) :
    Option (GoJSON × List Char) :=
  match l with
  | c :: d :: l2 =>
    if c = '.' then
      if isDig d then
        let r := parseFracAcc (n1 * 10 + digVal d) 1 l2
        some ((if neg then GoJSON.num (-(r.1 : Int)) r.2.1
               else GoJSON.num (r.1 : Int) r.2.1), r.2.2)
      else some ((if neg then GoJSON.num (-(n1 : Int)) 0
                  else GoJSON.num (n1 : Int) 0), l)
    else some ((if neg then GoJSON.num (-(n1 : Int)) 0
                else GoJSON.num (n1 : Int) 0), l)
  | _ => some ((if neg then GoJSON.num (-(n1 : Int)) 0
                else GoJSON.num (n1 : Int) 0), l)

/-- Loops over the comma-separated items of an array literal; the value
parser is passed as an oracle and the fuel bounds the number of items. -/
def parseArrItems (pv : List Char → Option (GoJSON × List Char)) :
    Nat → List Char → List GoJSON → Option (GoJSON × List Char)
  | 0, _, _ => none
  | fuel + 1, l, acc =>
    match pv l with
    | some (v, ',' :: rest) => parseArrItems pv fuel rest (v :: acc)
    | some (v, ']' :: rest) => some (.arr (v :: acc).reverse, rest)
    | _ => none

/-- Loops over the comma-separated key-value pairs of an object literal. -/
def parseObjItems (pv : List Char → Option (GoJSON × List Char)) :
    Nat → List Char → List (String × GoJSON) → Option (GoJSON × List Char)
  | 0, _, _ => none
  | fuel + 1, l, acc =>
    match l with
    | '"' :: l' =>
      match parseStrBody l' [] with
      | some (k, ':' :: l2) =>
        match pv l2 with
        | some (v, ',' :: rest) => parseObjItems pv fuel rest ((k, v) :: acc)
        | some (v, '}' :: rest) => some (.obj ((k, v) :: acc).reverse, rest)
        | _ => none
      | _ => none
    | _ => none

/-- Modelled from the spec: section 4.4, the delegated standard JSON
parser producing the generic tree.  Numbers are signed decimal literals,
optionally with a decimal point and fraction digits, matching the decimal
Number model; exponent notation and whitespace handling are omitted, no
claim involves inputs containing them. -/
def parseVal : Nat → List Char → Option (GoJSON × List Char)
  | 0, _ => none
  | fuel + 1, input =>
    match input with
    | [] => none
    | c :: l =>
      if c = 'n' then
        match l with
        | 'u' :: 'l' :: 'l' :: rest => some (.null, rest)
        | _ => none
      else if c = 't' then
        match l with
        | 'r' :: 'u' :: 'e' :: rest => some (.bool true, rest)
        | _ => none
      else if c = 'f' then
        match l with
        | 'a' :: 'l' :: 's' :: 'e' :: rest => some (.bool false, rest)
        | _ => none
      else if c = '"' then
        match parseStrBody l [] with
        | some (s, rest) => some (.str s, rest)
        | none => none
      else if c = '[' then
        if l.head? = some ']' then some (.arr [], l.tail)
        else parseArrItems (parseVal fuel) fuel l []
      else if c = '{' then
        if l.head? = some '}' then some (.obj [], l.tail)
        else parseObjItems (parseVal fuel) fuel l []
      else if c = '-' then
        match l with
        | d :: l' =>
          if isDig d then
            match parseNatAcc (digVal d) l' with
            | (n1, rest1) => parseNumTail true n1 rest1
          else none
        | [] => none
      else if isDig c then
        match parseNatAcc (digVal c) l with
        | (n1, rest1) => parseNumTail false n1 rest1
      else none

/-- Modelled from the spec: section 4.4, decode of serialized text into a
Dynamic Value: the whole input must parse as one JSON value; a malformed
input fails with a DecodingError. -/
def Decode (s : String) : Except String LV :=
  match parseVal (s.length + 1) s.data with
  | some (g, []) => .ok (DecodeValue g)
  | _ => .error "DecodingError: invalid JSON input"

/-- Whether the input starts with a character that would extend a numeric
literal, a decimal digit or a decimal point (the maximal-munch boundary
condition for the number parser). -/
def headNumCont : List Char → Bool
  | [] => false
  | c :: _ => isDig c || c = '.'

/-- Round-trip property of a single value at parser fuel F: it encodes
successfully and the parser applied to the encoding followed by any
non-digit-starting tail returns a generic tree that decodes back to the
value. -/
def ItemProp (F : Nat) (v : LV) : Prop :=
  ∃ cs, encodeVal v = .ok cs ∧
    ∀ rest, headNumCont rest = false →
      ∃ g, parseVal F (cs ++ rest) = some (g, rest) ∧ DecodeValue g = v

mutual

/-- Parser fuel sufficient for a value: one unit per value plus one per
table entry. -/
def needFuel : LV → Nat
  | .table kvs => 1 + needFuelEntries kvs
  | _ => 1

/-- Parser fuel sufficient for the entries of a table. -/
def needFuelEntries : List (LV × LV) → Nat
  | [] => 0
  | (_, v) :: rest => 1 + needFuel v + needFuelEntries rest

end

/-- Modelled from the spec: sections 4.2 and 4.3, the script-facing encode
binding of glua-json (implementation absent from this tree): on failure it
pushes Nil then the error String, on success the serialized text then
Nil. -/
def apiEncode (v : LV) : List LV :=
  match Encode v with
  | .error e => [.nil, .str e]
  | .ok s => [.str s, .nil]

/-- Modelled from the spec: sections 4.2 and 4.4, the script-facing decode
binding of glua-json: on failure it pushes Nil then the error String, on
success the decoded value then Nil. -/
def apiDecode (s : String) : List LV :=
  match Decode s with
  | .error e => [.nil, .str e]
  | .ok v => [v, .nil]

end GluaJson

/-- Outcome of a native library call as seen at a binding boundary: a value,
or a Go panic carrying a message. -/
inductive PanicOr (α : Type) where
  | value (v : α)
  | panic (msg : String)
deriving Repr

/-- Result of one binding invocation: values pushed for the script, a
raised script-level error (RaiseError), or an uncaught Go panic escaping
the binding. -/
inductive Outcome (α : Type) where
  | ok (vs : α)
  | raised (msg : String)
  | panicked (msg : String)
deriving Repr

/-- Boolean view of whether an outcome is a raised script-level error. -/
def Outcome.isRaised {α : Type} : Outcome α → Bool
  | .raised _ => true
  | _ => false

/-- The Go conversion of a number to an integer type truncates toward
zero; on the decimal Number model this is the significand divided by the
scale, T-division. -/
def truncNum (m : Int) (e : Nat) : Int := Int.tdiv m (10 ^ e)

/-- The Number entries of a table's entry list, in table order, as
significand-exponent pairs; the chunk every byte- or integer-sequence
collector keeps. -/
def numEntries (entries : List (LV × LV)) : List (Int × Nat) :=
  (entries.map Prod.snd).filterMap
    (fun v => match v with | .num m e => some (m, e) | _ => none)

namespace GluaHeap

open GluaJson

/-- Heap values: the Dynamic Value atoms (with integer-valued numbers,
which the cycle claims never inspect) and a table as a reference (by
identity) into a heap, so that cyclic structures are representable, as
required by the recursive-structure detection of spec section 4.3
step 6. -/
inductive HLV where
  | nil
  | bool (b : Bool)
  | num (n : Int)
  | str (s : String)
  | tbl (id : Nat)
deriving Repr, DecidableEq

/-- A heap of tables: position id holds the entry list of table id. -/
abbrev Heap : Type := List (List (HLV × HLV))

/-- Entries of table id (a dangling id has no entries). -/
def entsOf (h : Heap) (id : Nat) : List (HLV × HLV) :=
  (List.get? h id).getD []

/-- Checks that the keys of heap entries are exactly i, i+1, ... in
order. -/
def arrKeysFromH : Int → List (HLV × HLV) → Bool
  | _, [] => true
  | i, (k, _) :: rest =>
    (match k with | .num m => m = i | _ => false) && arrKeysFromH (i + 1) rest

/-- Checks that every heap key is a string. -/
def allStrKeysH (kvs : List (HLV × HLV)) : Bool :=
  kvs.all (fun kv => match kv.1 with | .str _ => true | _ => false)

/-- Checks that every heap key is an integer number. -/
def allIntKeysH (kvs : List (HLV × HLV)) : Bool :=
  kvs.all (fun kv => match kv.1 with | .num _ => true | _ => false)

/-- Key-shape scan of heap entries, mirroring the tree-model classify. -/
def classifyH (kvs : List (HLV × HLV)) : KeyShape :=
  if arrKeysFromH 1 kvs then .arr
  else if allStrKeysH kvs then .obj
  else if allIntKeysH kvs then .sparse
  else .mixed

/-- Quoted heap object key; classification guarantees a string key. -/
def keyCharsH : HLV → List Char
  | .str s => encStr s
  | _ => []

/-- Encodes array entry values in order, propagating fuel exhaustion and
errors; the encoder for one value is passed as an oracle. -/
def encodeHArr (enc : HLV → Option (Except String (List Char))) :
    List (HLV × HLV) → Option (Except String (List (List Char)))
  | [] => some (.ok [])
  | (_, v) :: rest =>
    match enc v with
    | none => none
    | some (.error e) => some (.error e)
    | some (.ok s) =>
      match encodeHArr enc rest with
      | none => none
      | some (.error e) => some (.error e)
      | some (.ok ss) => some (.ok (s :: ss))

/-- Encodes object entries in table order as key colon value fragments. -/
def encodeHObj (enc : HLV → Option (Except String (List Char))) :
    List (HLV × HLV) → Option (Except String (List (List Char)))
  | [] => some (.ok [])
  | (k, v) :: rest =>
    match enc v with
    | none => none
    | some (.error e) => some (.error e)
    | some (.ok s) =>
      match encodeHObj enc rest with
      | none => none
      | some (.error e) => some (.error e)
      | some (.ok ss) => some (.ok ((keyCharsH k ++ ':' :: s) :: ss))

/-- Modelled from the spec: section 4.3 with step 6, the encoder over the
heap model.  It tracks the set of tables currently being visited on the
active encoding path (by identity) and fails with the recursively-nested
error asserted by json_test.go as soon as a revisit is detected.  The fuel
only bounds the recursion depth; it is proved sufficient below (none is
never returned for the fuel the top-level entry point supplies). -/
def encodeH : Nat → Heap → List Nat → HLV → Option (Except String (List Char))
  | 0, _, _, _ => none
  | fuel + 1, h, path, v =>
    match v with
    | .nil => some (.ok "null".data)
    | .bool true => some (.ok "true".data)
    | .bool false => some (.ok "false".data)
    | .num n => some (.ok (intChars n))
    | .str s => some (.ok (encStr s))
    | .tbl id =>
      if id ∈ path then some (.error "cannot encode recursively nested tables")
      else
        match classifyH (entsOf h id) with
        | .arr =>
          match encodeHArr (encodeH fuel h (id :: path)) (entsOf h id) with
          | none => none
          | some (.error e) => some (.error e)
          | some (.ok ss) => some (.ok ('[' :: (joinComma ss ++ [']'])))
        | .obj =>
          match encodeHObj (encodeH fuel h (id :: path)) (entsOf h id) with
          | none => none
          | some (.error e) => some (.error e)
          | some (.ok ss) => some (.ok ('{' :: (joinComma ss ++ ['}'])))
        | .sparse => some (.error "cannot encode sparse array")
        | .mixed => some (.error "cannot encode mixed or invalid key types")

/-- Top-level heap encode with fuel one more than the number of tables in
the heap, which is proved sufficient. -/
def EncodeHeap (h : Heap) (v : HLV) : Except String String :=
  match encodeH (h.length + 1) h [] v with
  | some (.ok cs) => .ok ⟨cs⟩
  | some (.error e) => .error e
  | none => .error "fuel exhausted"

/-- Table i directly contains table j: some entry value of i is the table
reference j. -/
def ContainsH (h : Heap) (i j : Nat) : Prop :=
  ∃ k, (k, HLV.tbl j) ∈ entsOf h i

/-- Every table of the heap has a valid key shape (pure-array or
pure-object). -/
def wellShapedB (h : Heap) : Bool :=
  h.all (fun ents => classifyH ents = KeyShape.arr ∨ classifyH ents = KeyShape.obj)

/-- Starting from table i, some table on a containment cycle is reachable:
i transitively contains a table that transitively contains itself. -/
def HasCycleFrom (h : Heap) (i : Nat) : Prop :=
  ∃ j, Relation.ReflTransGen (ContainsH h) i j ∧
    Relation.TransGen (ContainsH h) j j

end GluaHeap

namespace GluaSprig

open GluaJson

/-- Embedding of RandIntFunc (glua-sprig module.go): the random source
rand.Intn is an explicit oracle; the Boolean of the result records whether
the source was consulted.  The source returns min whenever min equals max
or max is at most min, and only otherwise draws rand.Intn(max-min)+min;
the swap branch follows the source text. -/
def RandIntFunc (randIntn : Int → Int) (min max : Int) : Int × Bool :=
  if min = max ∨ max ≤ min then (min, false)
  else
    let p := if min > max then (max, min) else (min, max)
    (randIntn (p.2 - p.1) + p.1, true)

/-- Octal digit test (characters 0-7). -/
def isOct (c : Char) : Bool := 48 ≤ c.toNat && c.toNat ≤ 55

/-- Value of an unsigned octal digit string, or none when empty or
containing a non-octal character (strconv.ParseUint base 8). -/
def octVal? : List Char → Option Nat :=
  let rec go : Nat → List Char → Option Nat
    | acc, [] => some acc
    | acc, c :: l => if isOct c then go (acc * 8 + (c.toNat - 48)) l else none
  fun ds => match ds with
  | [] => none
  | _ => go 0 ds

/-- Embedding of strconv.ParseInt(s, 8, 64): optional sign, octal digits,
64-bit signed range check; none models a non-nil error. -/
def parseOct (s : String) : Option Int :=
  match s.data with
  | '+' :: ds =>
    match octVal? ds with
    | none => none
    | some n => if (n : Int) ≤ 2 ^ 63 - 1 then some (n : Int) else none
  | '-' :: ds =>
    match octVal? ds with
    | none => none
    | some n => if (n : Int) ≤ 2 ^ 63 then some (-(n : Int)) else none
  | ds =>
    match octVal? ds with
    | none => none
    | some n => if (n : Int) ≤ 2 ^ 63 - 1 then some (n : Int) else none

/-- Embedding of ToDecimalFunc (glua-sprig module.go): the argument is
coerced to text (string kept, number via its display form, true to 1 and
false to 0, nil to 0, any other value via its display form, which for a
table is an identity-dependent string supplied here as displayOther), the
text is parsed as base 8, and a failed parse yields 0 rather than an
error. -/
def ToDecimalFunc (displayOther : String) (v : LV) : Int :=
  let param : String :=
    match v with
    | .str s => s
    | .num m 0 => toString m
    | .num m e => ⟨GluaJson.decChars m e⟩
    | .bool true => "1"
    | .bool false => "0"
    | .nil => "0"
    | .table _ => displayOther
  (parseOct param).getD 0

/-- Embedding of the argument collection of SeqFunc (glua-sprig module.go):
the table is iterated in table order and only Number entries are kept, in
order (non-numeric entries are silently skipped). -/
def seqParams (entries : List (LV × LV)) : List Int :=
  entries.foldl
    (fun acc kv =>
      match kv.2 with | .num m e => acc ++ [truncNum m e] | _ => acc) []

/-- Embedding of SeqFunc: the wrapped sprig.seq call is an oracle over the
collected numeric parameters; its panic channel is re-raised by the
deferred recover of the source. -/
def SeqFunc (fn : List Int → PanicOr String) (entries : List (LV × LV)) :
    Outcome (List LV) :=
  match fn (seqParams entries) with
  | .panic m => .raised ("seq: " ++ m)
  | .value s => .ok [.str s]

/-- Embedding of AbbrevFunc (glua-sprig module.go): the wrapped sprig call
is an oracle that may panic; the deferred recover re-raises a panic as a
script error prefixed with the function name and carrying the original
message. -/
def AbbrevFunc (fn : Int → String → PanicOr String) (p0 : Int) (p1 : String) :
    Outcome (List LV) :=
  match fn p0 p1 with
  | .panic m => .raised ("abbrev: " ++ m)
  | .value s => .ok [.str s]

/-- Embedding of EncryptAESFunc (glua-sprig module.go): the wrapped sprig
call may panic (re-raised by the deferred recover) or return an error-like
secondary result, pushed via the two-value convention. -/
def EncryptAESFunc (fn : String → String → PanicOr (Except String String))
    (p0 p1 : String) : Outcome (List LV) :=
  match fn p0 p1 with
  | .panic m => .raised ("encryptAES: " ++ m)
  | .value (.error e) => .ok [.nil, .str e]
  | .value (.ok s) => .ok [.str s, .nil]

/-- Embedding of DecryptAESFunc (glua-sprig module.go), same shape as
EncryptAESFunc. -/
def DecryptAESFunc (fn : String → String → PanicOr (Except String String))
    (p0 p1 : String) : Outcome (List LV) :=
  match fn p0 p1 with
  | .panic m => .raised ("decryptAES: " ++ m)
  | .value (.error e) => .ok [.nil, .str e]
  | .value (.ok s) => .ok [.str s, .nil]

/-- Embedding of RegexFindFunc (glua-sprig module.go): regexp.Compile is an
oracle returning a compiled regex of abstract type R or an error; failure
pushes Nil then the message, success pushes the found string then Nil. -/
def RegexFindFunc {R : Type} (compile : String → Except String R)
    (find : R → String → String) (p0 p1 : String) : List LV :=
  match compile p0 with
  | .error err => [.nil, .str err]
  | .ok r => [.str (find r p1), .nil]

/-- Embedding of RegexFindAllFunc: the matches are materialized into a
1-based table. -/
def RegexFindAllFunc {R : Type} (compile : String → Except String R)
    (findAll : R → String → Int → List String) (p0 p1 : String) (p2 : Int) :
    List LV :=
  match compile p0 with
  | .error err => [.nil, .str err]
  | .ok r => [.table (arrEntriesFrom 1 ((findAll r p1 p2).map .str)), .nil]

/-- Embedding of RegexMatchFunc: regexp.MatchString is an oracle with an
error-like secondary result. -/
def RegexMatchFunc (matchString : String → String → Except String Bool)
    (p0 p1 : String) : List LV :=
  match matchString p0 p1 with
  | .error err => [.nil, .str err]
  | .ok b => [.bool b, .nil]

/-- Embedding of RegexReplaceAllFunc. -/
def RegexReplaceAllFunc {R : Type} (compile : String → Except String R)
    (replaceAll : R → String → String → String) (p0 p1 p2 : String) :
    List LV :=
  match compile p0 with
  | .error err => [.nil, .str err]
  | .ok r => [.str (replaceAll r p1 p2), .nil]

/-- Embedding of RegexReplaceAllLiteralFunc. -/
def RegexReplaceAllLiteralFunc {R : Type} (compile : String → Except String R)
    (replaceAllLit : R → String → String → String) (p0 p1 p2 : String) :
    List LV :=
  match compile p0 with
  | .error err => [.nil, .str err]
  | .ok r => [.str (replaceAllLit r p1 p2), .nil]

/-- Embedding of RegexSplitFunc: the pieces are materialized into a 1-based
table. -/
def RegexSplitFunc {R : Type} (compile : String → Except String R)
    (split : R → String → Int → List String) (p0 p1 : String) (p2 : Int) :
    List LV :=
  match compile p0 with
  | .error err => [.nil, .str err]
  | .ok r => [.table (arrEntriesFrom 1 ((split r p1 p2).map .str)), .nil]

end GluaSprig

namespace GluaRunes

/-- Byte view of a Lua number entry: the Go conversion byte(num) truncates
to the low 8 bits (numbers here are the exact integers of the model). -/
def toByte (n : Int) : Nat := (n % 256).toNat

/-- Embedding of the byte-collection loop shared by BytesToString and
BytesToRune (glua-runes): table.ForEach in table order, keeping only
Number entries, in order; every other entry is silently skipped. -/
def bytesFromTable (entries : List (LV × LV)) : List Nat :=
  entries.foldl
    (fun acc kv =>
      match kv.2 with
      | .num m e => acc ++ [toByte (truncNum m e)]
      | _ => acc) []

/-- Embedding of BytesToString (glua-runes): the collected bytes are pushed
as a raw byte string (represented here by the byte list itself). -/
def BytesToString (entries : List (LV × LV)) : List Nat :=
  bytesFromTable entries

/-- Embedding of BytesToRune (glua-runes): utf8.DecodeRune is an oracle
(none models the RuneError result); the binding pushes the rune number or
Nil. -/
def BytesToRune (decodeRune : List Nat → Option Int)
    (entries : List (LV × LV)) : LV :=
  match decodeRune (bytesFromTable entries) with
  | none => .nil
  | some r => .num r 0

/-- Embedding of the byte-collection loop of RuneToBytes (glua-runes):
table.ForEach in table order keeps only Number entries and appends the
UTF-8 bytes of each entry's rune, in order (utf8.EncodeRune together with
the rune conversion is the oracle encodeRune); every non-numeric entry is
silently skipped. -/
def runeToBytesBuf (encodeRune : Int → List Nat)
    (entries : List (LV × LV)) : List Nat :=
  entries.foldl
    (fun buf kv =>
      match kv.2 with
      | .num m e => buf ++ encodeRune (truncNum m e)
      | _ => buf) []

/-- Embedding of RuneToBytes (glua-runes): the bytes collected by the
ForEach loop are pushed as a fresh 1-based table of byte numbers. -/
def RuneToBytes (encodeRune : Int → List Nat)
    (entries : List (LV × LV)) : LV :=
  .table (GluaJson.arrEntriesFrom 1
    ((runeToBytesBuf encodeRune entries).map (fun b => .num (b : Int) 0)))

/-- The two clamped slice bounds computed by RuneRange (glua-runes) for a
string of runeLen runes: start is clamped into the interval from 0 to
runeLen, and end is clamped into the interval from 0 to runeLen. -/
def runeRangeClamp (runeLen : Nat) (startArg endArg : Int) : Int × Int :=
  let start := startArg - 1
  let start := if start < 0 then 0 else start
  let start := if start > (runeLen : Int) then (runeLen : Int) else start
  let e :=
    if endArg < 0 then (runeLen : Int)
    else
      let e := endArg - 1
      let e := if e > (runeLen : Int) then (runeLen : Int) else e
      if e < 0 then 0 else e
  (start, e)

/-- Embedding of RuneRange (glua-runes): start and end are clamped and the
rune slice runes[start:end] is returned; none models the Go slice-bounds
panic that fires when the clamped start exceeds the clamped end. -/
def RuneRange (s : String) (startArg endArg : Int) : Option String :=
  let runes := s.data
  let p := runeRangeClamp runes.length startArg endArg
  if p.1 ≤ p.2 then some ⟨(runes.take p.2.toNat).drop p.1.toNat⟩ else none

end GluaRunes

namespace GluaStrings

open GluaJson

/-- Embedding of callFunc_Rune_ret_Bool (glua-strings): a protected call of
the script callback whose error is turned into a Go panic, not caught
here. -/
def callFunc_Rune_ret_Bool (callResult : Except String Bool) : PanicOr Bool :=
  match callResult with
  | .error e => .panic e
  | .ok b => .value b

/-- One pass of strings.FieldsFunc over the runes, calling the callback
through callFunc_Rune_ret_Bool; the first callback failure panics. -/
def fieldsFuncFlags (f : Char → Except String Bool) :
    List Char → PanicOr (List Bool)
  | [] => .value []
  | c :: l =>
    match callFunc_Rune_ret_Bool (f c) with
    | .panic m => .panic m
    | .value b =>
      match fieldsFuncFlags f l with
      | .panic m => .panic m
      | .value bs => .value (b :: bs)

/-- Splits runes into maximal runs of non-separator characters, given the
separator flags (the strings.Fields splitting discipline: separators are
dropped and no empty fields are produced). -/
def fieldsSplitAux (cur : List Char) : List (Char × Bool) → List (List Char)
  | [] => if cur.isEmpty then [] else [cur.reverse]
  | (c, sep) :: rest =>
    if sep then
      if cur.isEmpty then fieldsSplitAux [] rest
      else cur.reverse :: fieldsSplitAux [] rest
    else fieldsSplitAux (c :: cur) rest

/-- Embedding of the FieldsFunc binding (glua-strings): the callback error
becomes a panic inside callFunc_Rune_ret_Bool and the binding installs no
recover, so the panic escapes the binding boundary instead of being
re-raised there. -/
def FieldsFunc (s : String) (f : Char → Except String Bool) :
    Outcome (List LV) :=
  match fieldsFuncFlags f s.data with
  | .panic m => .panicked m
  | .value bs =>
    .ok [.table (arrEntriesFrom 1
      ((fieldsSplitAux [] (s.data.zip bs)).map (fun cs => .str ⟨cs⟩)))]

end GluaStrings

namespace GluaJson

theorem isDig_digitChar {n : Nat} (h : n < 10) :
    isDig (Nat.digitChar n) = true ∧ digVal (Nat.digitChar n) = n := by
  interval_cases n <;> exact ⟨by decide, by decide⟩

theorem isDig_not_special {c : Char} (h : isDig c = true) :
    c ≠ 'n' ∧ c ≠ 't' ∧ c ≠ 'f' ∧ c ≠ '"' ∧ c ≠ '[' ∧ c ≠ '{' ∧ c ≠ '-' ∧
      c ≠ ']' ∧ c ≠ '}' ∧ c ≠ ',' ∧ c ≠ ':' := by
  refine ⟨?_, ?_, ?_, ?_, ?_, ?_, ?_, ?_, ?_, ?_, ?_⟩ <;>
    (rintro rfl; exact absurd h (by decide))

theorem parseNatAcc_digits :
    ∀ (ds : List Char) (a : Nat) (rest : List Char),
      (∀ c ∈ ds, isDig c = true) →
      parseNatAcc a (ds ++ rest) =
        parseNatAcc (ds.foldl (fun x c => x * 10 + digVal c) a) rest := by
  intro ds
  induction ds with
  | nil => intro a rest _; rfl
  | cons c ds ih =>
    intro a rest h
    have hc : isDig c = true := h c (List.mem_cons_self c ds)
    simp only [List.cons_append, parseNatAcc, hc, if_true, List.foldl_cons]
    exact ih _ rest (fun d hd => h d (List.mem_cons_of_mem c hd))

theorem headNumCont_cons {c : Char} {l : List Char}
    (h : headNumCont (c :: l) = false) : isDig c = false ∧ c ≠ '.' := by
  simp only [headNumCont, Bool.or_eq_false_iff, decide_eq_false_iff_not] at h
  exact h

theorem parseNatAcc_notdig {c : Char} (a : Nat) (l : List Char)
    (h : isDig c = false) : parseNatAcc a (c :: l) = (a, c :: l) := by
  simp only [parseNatAcc, h]
  rfl

theorem parseNatAcc_stop {rest : List Char} (a : Nat) (h : headNumCont rest = false) :
    parseNatAcc a rest = (a, rest) := by
  cases rest with
  | nil => rfl
  | cons c l => exact parseNatAcc_notdig a l (headNumCont_cons h).1

theorem natCharsAux_digits :
    ∀ (fuel n : Nat), ∀ c ∈ natCharsAux fuel n, isDig c = true := by
  intro fuel
  induction fuel with
  | zero => intro n c hc; simp [natCharsAux] at hc
  | succ fuel ih =>
    intro n c hc
    by_cases h : n < 10
    · simp only [natCharsAux, if_pos h, List.mem_singleton] at hc
      subst hc
      exact (isDig_digitChar h).1
    · simp only [natCharsAux, if_neg h, List.mem_append, List.mem_singleton] at hc
      rcases hc with hc | hc
      · exact ih _ c hc
      · subst hc
        exact (isDig_digitChar (Nat.mod_lt _ (by norm_num))).1

theorem natCharsAux_ne_nil {fuel n : Nat} (h : 1 ≤ fuel) :
    natCharsAux fuel n ≠ [] := by
  cases fuel with
  | zero => omega
  | succ fuel =>
    by_cases hn : n < 10
    · simp [natCharsAux, hn]
    · simp [natCharsAux, hn]

theorem natCharsAux_foldl :
    ∀ (fuel n a : Nat), n + 1 ≤ fuel →
      (natCharsAux fuel n).foldl (fun x c => x * 10 + digVal c) a =
        a * 10 ^ (natCharsAux fuel n).length + n := by
  intro fuel
  induction fuel with
  | zero => intro n a h; omega
  | succ fuel ih =>
    intro n a h
    by_cases hn : n < 10
    · simp only [natCharsAux, if_pos hn, List.foldl_cons, List.foldl_nil,
        List.length_singleton, pow_one, (isDig_digitChar hn).2]
    · have hdiv : n / 10 + 1 ≤ fuel := by
        have h1 : n / 10 < n := Nat.div_lt_self (by omega) (by norm_num)
        omega
      simp only [natCharsAux, if_neg hn, List.foldl_append, List.foldl_cons,
        List.foldl_nil, List.length_append, List.length_singleton]
      rw [ih (n / 10) a hdiv]
      have hmod : digVal (Nat.digitChar (n % 10)) = n % 10 :=
        (isDig_digitChar (Nat.mod_lt _ (by norm_num))).2
      rw [hmod, pow_succ]
      have hdm : 10 * (n / 10) + n % 10 = n := Nat.div_add_mod n 10
      ring_nf
      omega

theorem parseNatAcc_natChars (n : Nat) (rest : List Char) (h : headNumCont rest = false) :
    ∃ c cs, natChars n = c :: cs ∧ isDig c = true ∧
      parseNatAcc (digVal c) (cs ++ rest) = (n, rest) := by
  obtain ⟨c, cs, heq⟩ : ∃ c cs, natChars n = c :: cs := by
    rcases hne : natChars n with _ | ⟨c, cs⟩
    · exact absurd hne (natCharsAux_ne_nil (by omega))
    · exact ⟨c, cs, rfl⟩
  have hdigs : ∀ d ∈ c :: cs, isDig d = true := by
    rw [← heq]
    exact natCharsAux_digits (n + 1) n
  refine ⟨c, cs, heq, hdigs c (List.mem_cons_self c cs), ?_⟩
  rw [parseNatAcc_digits cs (digVal c) rest
    (fun d hd => hdigs d (List.mem_cons_of_mem c hd))]
  rw [parseNatAcc_stop _ h]
  have hfold : (c :: cs).foldl (fun x c => x * 10 + digVal c) 0 = n := by
    rw [← heq]
    have := natCharsAux_foldl (n + 1) n 0 (by omega)
    simpa using this
  simp only [List.foldl_cons] at hfold
  simp only [Nat.zero_mul, Nat.zero_add] at hfold
  rw [hfold]

theorem parseNumTail_stop (neg : Bool) (n1 : Nat) {rest : List Char}
    (h : headNumCont rest = false) :
    parseNumTail neg n1 rest =
      some ((if neg then GoJSON.num (-(n1 : Int)) 0 else GoJSON.num (n1 : Int) 0),
        rest) := by
  match rest with
  | [] => rfl
  | [c] => rfl
  | c :: d :: t =>
    have hc := (headNumCont_cons h).2
    simp only [parseNumTail, if_neg hc]

theorem parseVal_intChars (F : Nat) (n : Int) (rest : List Char)
    (h : headNumCont rest = false) :
    parseVal (F + 1) (intChars n ++ rest) = some (.num n 0, rest) := by
  by_cases hn : n < 0
  · obtain ⟨c, cs, heq, hc, hparse⟩ := parseNatAcc_natChars n.natAbs rest h
    have habs : -(n.natAbs : Int) = n := by omega
    simp only [intChars, if_pos hn, heq]
    simp only [List.cons_append, parseVal]
    simp +decide only [hc, hparse, if_false, if_true]
    rw [parseNumTail_stop true _ h]
    rw [habs]
    rfl
  · obtain ⟨c, cs, heq, hc, hparse⟩ := parseNatAcc_natChars n.natAbs rest h
    have habs : (n.natAbs : Int) = n := by omega
    obtain ⟨h1, h2, h3, h4, h5, h6, h7, _⟩ := isDig_not_special hc
    simp only [intChars, if_neg hn, heq]
    simp only [List.cons_append, parseVal]
    simp only [if_neg h1, if_neg h2, if_neg h3, if_neg h4, if_neg h5, if_neg h6,
      if_neg h7, hc, if_true, hparse]
    rw [parseNumTail_stop false _ h]
    rw [habs]
    rfl

theorem parseFracAcc_notdig {c : Char} (acc cnt : Nat) (l : List Char)
    (h : isDig c = false) :
    parseFracAcc acc cnt (c :: l) = (acc, cnt, c :: l) := by
  simp only [parseFracAcc, h]
  rfl

theorem parseFracAcc_stop (acc cnt : Nat) {rest : List Char}
    (h : headNumCont rest = false) :
    parseFracAcc acc cnt rest = (acc, cnt, rest) := by
  cases rest with
  | nil => rfl
  | cons c l => exact parseFracAcc_notdig acc cnt l (headNumCont_cons h).1

theorem parseFracAcc_digits :
    ∀ (ds : List Char) (acc cnt : Nat) (rest : List Char),
      (∀ c ∈ ds, isDig c = true) →
      parseFracAcc acc cnt (ds ++ rest) =
        parseFracAcc (ds.foldl (fun x c => x * 10 + digVal c) acc)
          (cnt + ds.length) rest := by
  intro ds
  induction ds with
  | nil =>
    intro acc cnt rest _
    simp only [List.nil_append, List.foldl_nil, List.length_nil, Nat.add_zero]
  | cons c ds ih =>
    intro acc cnt rest h
    have hc : isDig c = true := h c (List.mem_cons_self c ds)
    simp only [List.cons_append, parseFracAcc, hc, if_true, List.foldl_cons,
      List.length_cons, List.append_eq]
    rw [ih _ _ rest (fun d hd => h d (List.mem_cons_of_mem c hd))]
    have hcnt : cnt + 1 + ds.length = cnt + (ds.length + 1) := by omega
    rw [hcnt]

theorem parseNumTail_frac (neg : Bool) (n1 : Nat) (d : Char) (ftail rest : List Char)
    (hd : isDig d = true) (hft : ∀ c ∈ ftail, isDig c = true)
    (h : headNumCont rest = false) :
    parseNumTail neg n1 ('.' :: d :: (ftail ++ rest)) =
      some ((if neg then
          GoJSON.num (-(((d :: ftail).foldl (fun x c => x * 10 + digVal c) n1 : Nat) : Int))
            (ftail.length + 1)
        else
          GoJSON.num (((d :: ftail).foldl (fun x c => x * 10 + digVal c) n1 : Nat) : Int)
            (ftail.length + 1)), rest) := by
  simp only [parseNumTail, if_pos rfl, hd, if_true]
  rw [parseFracAcc_digits ftail (n1 * 10 + digVal d) 1 rest hft,
    parseFracAcc_stop _ _ h]
  have hcnt : 1 + ftail.length = ftail.length + 1 := by omega
  simp only [List.foldl_cons, hcnt]

theorem foldl_replicate_zero (k : Nat) (ds : List Char) :
    (List.replicate k '0' ++ ds).foldl (fun x c => x * 10 + digVal c) 0 =
      ds.foldl (fun x c => x * 10 + digVal c) 0 := by
  induction k with
  | zero => rfl
  | succ k ih =>
    simp only [List.replicate_succ, List.cons_append, List.foldl_cons]
    have h0 : 0 * 10 + digVal '0' = 0 := by decide
    rw [h0]
    exact ih

theorem padDigits_digits {ds : List Char} (e : Nat)
    (h : ∀ c ∈ ds, isDig c = true) :
    ∀ c ∈ padDigits ds e, isDig c = true := by
  intro c hc
  simp only [padDigits, List.mem_append, List.mem_replicate] at hc
  rcases hc with ⟨_, rfl⟩ | hc
  · decide
  · exact h c hc

theorem padDigits_length (ds : List Char) (e : Nat) :
    (padDigits ds e).length = max (e + 1) ds.length := by
  simp only [padDigits, List.length_append, List.length_replicate]
  omega

theorem padDigits_foldl (ds : List Char) (e : Nat) :
    (padDigits ds e).foldl (fun x c => x * 10 + digVal c) 0 =
      ds.foldl (fun x c => x * 10 + digVal c) 0 := by
  simp only [padDigits]
  exact foldl_replicate_zero _ ds

theorem numRun_eval (neg : Bool) (ds : List Char) (e : Nat) (rest : List Char)
    (hds : ∀ c ∈ ds, isDig c = true) (hlen : e + 1 ≤ ds.length) (he : 1 ≤ e)
    (h : headNumCont rest = false) :
    ∃ c cs n1 rest1,
      ds.take (ds.length - e) ++ ('.' :: (ds.drop (ds.length - e) ++ rest)) =
        c :: cs ∧
      isDig c = true ∧
      parseNatAcc (digVal c) cs = (n1, rest1) ∧
      parseNumTail neg n1 rest1 =
        some ((if neg then
            GoJSON.num (-((ds.foldl (fun x c => x * 10 + digVal c) 0 : Nat) : Int)) e
          else
            GoJSON.num ((ds.foldl (fun x c => x * 10 + digVal c) 0 : Nat) : Int) e),
          rest) := by
  have hiplen : (ds.take (ds.length - e)).length = ds.length - e := by
    simp only [List.length_take]
    omega
  have hfplen : (ds.drop (ds.length - e)).length = e := by
    simp only [List.length_drop]
    omega
  obtain ⟨c, cs0, hip⟩ : ∃ c cs0, ds.take (ds.length - e) = c :: cs0 := by
    rcases hi : ds.take (ds.length - e) with _ | ⟨c, cs0⟩
    · rw [hi] at hiplen
      simp only [List.length_nil] at hiplen
      omega
    · exact ⟨c, cs0, rfl⟩
  obtain ⟨d, ftail, hfp⟩ : ∃ d ftail, ds.drop (ds.length - e) = d :: ftail := by
    rcases hf : ds.drop (ds.length - e) with _ | ⟨d, ftail⟩
    · rw [hf] at hfplen
      simp only [List.length_nil] at hfplen
      omega
    · exact ⟨d, ftail, rfl⟩
  have hipdig : ∀ x ∈ c :: cs0, isDig x = true := by
    rw [← hip]
    exact fun x hx => hds x (List.take_subset _ _ hx)
  have hfpdig : ∀ x ∈ d :: ftail, isDig x = true := by
    rw [← hfp]
    exact fun x hx => hds x (List.drop_subset _ _ hx)
  refine ⟨c, cs0 ++ ('.' :: ((d :: ftail) ++ rest)),
    (c :: cs0).foldl (fun x c => x * 10 + digVal c) 0,
    '.' :: ((d :: ftail) ++ rest), ?_, hipdig c (List.mem_cons_self c cs0), ?_, ?_⟩
  · rw [hip, hfp]
    simp only [List.cons_append]
  · rw [parseNatAcc_digits cs0 (digVal c) ('.' :: ((d :: ftail) ++ rest))
      (fun x hx => hipdig x (List.mem_cons_of_mem c hx))]
    rw [parseNatAcc_notdig _ _ (by decide)]
    simp only [List.foldl_cons, Nat.zero_mul, Nat.zero_add]
  · rw [List.cons_append, parseNumTail_frac neg _ d ftail rest
      (hfpdig d (List.mem_cons_self d ftail))
      (fun x hx => hfpdig x (List.mem_cons_of_mem d hx)) h]
    have hval : (d :: ftail).foldl (fun x c => x * 10 + digVal c)
        ((c :: cs0).foldl (fun x c => x * 10 + digVal c) 0) =
        ds.foldl (fun x c => x * 10 + digVal c) 0 := by
      rw [← List.foldl_append, ← hip, ← hfp, List.take_append_drop]
    have hlen2 : ftail.length + 1 = e := by
      have : (d :: ftail).length = e := by rw [← hfp]; exact hfplen
      simp only [List.length_cons] at this
      omega
    rw [hval, hlen2]

theorem parseVal_decChars (F : Nat) (m : Int) (e : Nat) (rest : List Char)
    (h : headNumCont rest = false) :
    parseVal (F + 1) (decChars m e ++ rest) = some (.num m e, rest) := by
  rcases Nat.eq_zero_or_pos e with he | he
  · subst he
    rw [decChars, if_pos rfl]
    exact parseVal_intChars F m rest h
  · have hne : e ≠ 0 := by omega
    have hdig : ∀ c ∈ padDigits (natChars m.natAbs) e, isDig c = true :=
      padDigits_digits e (natCharsAux_digits _ _)
    have hlen : e + 1 ≤ (padDigits (natChars m.natAbs) e).length := by
      rw [padDigits_length]
      omega
    have hfold : (padDigits (natChars m.natAbs) e).foldl
        (fun x c => x * 10 + digVal c) 0 = m.natAbs := by
      rw [padDigits_foldl]
      have := natCharsAux_foldl (m.natAbs + 1) m.natAbs 0 (by omega)
      simpa [natChars] using this
    by_cases hm : m < 0
    · obtain ⟨c, cs, n1, rest1, hsplit, hc, hacc, htail⟩ :=
        numRun_eval true (padDigits (natChars m.natAbs) e) e rest hdig hlen he h
      have habs : -(m.natAbs : Int) = m := by omega
      rw [decChars, if_neg hne]
      simp only [if_pos hm, List.cons_append, List.append_assoc, List.nil_append]
      rw [hsplit]
      simp only [parseVal]
      simp +decide only [hc, hacc, if_false, if_true]
      rw [htail, hfold, habs]
      rfl
    · obtain ⟨c, cs, n1, rest1, hsplit, hc, hacc, htail⟩ :=
        numRun_eval false (padDigits (natChars m.natAbs) e) e rest hdig hlen he h
      have habs : (m.natAbs : Int) = m := by omega
      obtain ⟨h1, h2, h3, h4, h5, h6, h7, _⟩ := isDig_not_special hc
      rw [decChars, if_neg hne]
      simp only [if_neg hm, List.nil_append, List.append_assoc, List.cons_append]
      rw [hsplit]
      simp only [parseVal]
      simp only [if_neg h1, if_neg h2, if_neg h3, if_neg h4, if_neg h5, if_neg h6,
        if_neg h7, hc, if_true, hacc]
      rw [htail, hfold, habs]
      rfl

theorem parseStrBody_escapeChar (c : Char) (t acc : List Char) :
    parseStrBody (escapeChar c ++ t) acc = parseStrBody t (c :: acc) := by
  by_cases hq : c = '"'
  · subst hq
    rw [escapeChar, if_pos rfl, List.cons_append, List.singleton_append,
      parseStrBody.eq_def]
    simp +decide [unescape]
  · by_cases hb : c = '\\'
    · subst hb
      rw [escapeChar, if_neg (by decide), if_pos rfl, List.cons_append,
        List.singleton_append, parseStrBody.eq_def]
      simp +decide [unescape]
    · rw [escapeChar, if_neg hq, if_neg hb, List.singleton_append,
        parseStrBody.eq_def]
      simp [hq, hb]

theorem parseStrBody_escString :
    ∀ (l acc rest : List Char),
      parseStrBody (escString l ++ '"' :: rest) acc =
        some (⟨acc.reverse ++ l⟩, rest) := by
  intro l
  induction l with
  | nil =>
    intro acc rest
    rw [escString, List.nil_append, parseStrBody.eq_def]
    simp
  | cons c l ih =>
    intro acc rest
    rw [escString, List.append_assoc, parseStrBody_escapeChar, ih]
    simp

theorem parseVal_encStr (F : Nat) (s : String) (rest : List Char) :
    parseVal (F + 1) (encStr s ++ rest) = some (.str s, rest) := by
  simp only [encStr, List.cons_append, parseVal]
  simp +decide only [if_false, if_true]
  rw [List.append_assoc, List.singleton_append, parseStrBody_escString]
  simp

theorem parseVal_null (F : Nat) (rest : List Char) :
    parseVal (F + 1) ("null".data ++ rest) = some (.null, rest) := by
  show parseVal (F + 1) ('n' :: 'u' :: 'l' :: 'l' :: rest) = some (.null, rest)
  simp +decide [parseVal]

theorem parseVal_true (F : Nat) (rest : List Char) :
    parseVal (F + 1) ("true".data ++ rest) = some (.bool true, rest) := by
  show parseVal (F + 1) ('t' :: 'r' :: 'u' :: 'e' :: rest) = some (.bool true, rest)
  simp +decide [parseVal]

theorem parseVal_false (F : Nat) (rest : List Char) :
    parseVal (F + 1) ("false".data ++ rest) = some (.bool false, rest) := by
  show parseVal (F + 1) ('f' :: 'a' :: 'l' :: 's' :: 'e' :: rest) =
    some (.bool false, rest)
  simp +decide [parseVal]

theorem entriesValidB_mem :
    ∀ (ents : List (LV × LV)), entriesValidB ents = true →
      ∀ kv ∈ ents, isValidB kv.2 = true := by
  intro ents
  induction ents with
  | nil => intro _ kv hm; simp at hm
  | cons hd tl ih =>
    intro h kv hm
    obtain ⟨k, v⟩ := hd
    simp only [entriesValidB, Bool.and_eq_true] at h
    rcases List.mem_cons.mp hm with hm | hm
    · subst hm; exact h.1
    · exact ih h.2 kv hm

theorem needFuelEntries_mem :
    ∀ (ents : List (LV × LV)), ∀ kv ∈ ents,
      needFuel kv.2 + 1 ≤ needFuelEntries ents := by
  intro ents
  induction ents with
  | nil => intro kv hm; simp at hm
  | cons hd tl ih =>
    intro kv hm
    obtain ⟨k, v⟩ := hd
    simp only [needFuelEntries]
    rcases List.mem_cons.mp hm with hm | hm
    · subst hm
      show needFuel v + 1 ≤ 1 + needFuel v + needFuelEntries tl
      omega
    · have := ih kv hm; omega

theorem encodeArrItems_cons_inv {k v : LV} {ents : List (LV × LV)}
    {ss : List (List Char)}
    (h : encodeArrItems ((k, v) :: ents) = .ok ss) :
    ∃ cs ss', encodeVal v = .ok cs ∧ encodeArrItems ents = .ok ss' ∧
      ss = cs :: ss' := by
  rw [encodeArrItems] at h
  cases hv : encodeVal v with
  | error e => rw [hv] at h; exact absurd h (by simp)
  | ok cs =>
    rw [hv] at h
    cases hr : encodeArrItems ents with
    | error e => rw [hr] at h; exact absurd h (by simp)
    | ok ss' =>
      rw [hr] at h
      simp only [Except.ok.injEq] at h
      exact ⟨cs, ss', rfl, rfl, h.symm⟩

theorem encodeObjItems_cons_inv {k v : LV} {ents : List (LV × LV)}
    {ss : List (List Char)}
    (h : encodeObjItems ((k, v) :: ents) = .ok ss) :
    ∃ cs ss', encodeVal v = .ok cs ∧ encodeObjItems ents = .ok ss' ∧
      ss = (keyChars k ++ ':' :: cs) :: ss' := by
  rw [encodeObjItems] at h
  cases hv : encodeVal v with
  | error e => rw [hv] at h; exact absurd h (by simp)
  | ok cs =>
    rw [hv] at h
    cases hr : encodeObjItems ents with
    | error e => rw [hr] at h; exact absurd h (by simp)
    | ok ss' =>
      rw [hr] at h
      simp only [Except.ok.injEq] at h
      exact ⟨cs, ss', rfl, rfl, h.symm⟩

theorem encodeArrItems_ok :
    ∀ (ents : List (LV × LV)),
      (∀ kv ∈ ents, ∃ cs, encodeVal kv.2 = .ok cs) →
      ∃ ss, encodeArrItems ents = .ok ss ∧ ss.length = ents.length := by
  intro ents
  induction ents with
  | nil => intro _; exact ⟨[], rfl, rfl⟩
  | cons hd tl ih =>
    intro h
    obtain ⟨k, v⟩ := hd
    obtain ⟨cs, hcs⟩ := h (k, v) (List.mem_cons_self _ _)
    obtain ⟨ss', hss', hlen⟩ := ih (fun kv hm => h kv (List.mem_cons_of_mem _ hm))
    refine ⟨cs :: ss', ?_, by simp [hlen]⟩
    rw [encodeArrItems, hcs, hss']

theorem encodeObjItems_ok :
    ∀ (ents : List (LV × LV)),
      (∀ kv ∈ ents, ∃ cs, encodeVal kv.2 = .ok cs) →
      ∃ ss, encodeObjItems ents = .ok ss ∧ ss.length = ents.length := by
  intro ents
  induction ents with
  | nil => intro _; exact ⟨[], rfl, rfl⟩
  | cons hd tl ih =>
    intro h
    obtain ⟨k, v⟩ := hd
    obtain ⟨cs, hcs⟩ := h (k, v) (List.mem_cons_self _ _)
    obtain ⟨ss', hss', hlen⟩ := ih (fun kv hm => h kv (List.mem_cons_of_mem _ hm))
    refine ⟨(keyChars k ++ ':' :: cs) :: ss', ?_, by simp [hlen]⟩
    rw [encodeObjItems, hcs, hss']

theorem joinComma_cons_ne {s : List Char} {ss : List (List Char)}
    (h : ss ≠ []) : joinComma (s :: ss) = s ++ ',' :: joinComma ss := by
  cases ss with
  | nil => exact absurd rfl h
  | cons t r => rfl

theorem joinComma_head (s : List Char) (ss : List (List Char)) :
    ∃ X, joinComma (s :: ss) = s ++ X := by
  cases ss with
  | nil => exact ⟨[], by simp [joinComma]⟩
  | cons t r => exact ⟨',' :: joinComma (t :: r), rfl⟩

theorem allStrKeys_cons {k v : LV} {ents : List (LV × LV)}
    (h : allStrKeys ((k, v) :: ents) = true) :
    (∃ s, k = .str s) ∧ allStrKeys ents = true := by
  simp only [allStrKeys, List.all_cons, Bool.and_eq_true] at h
  refine ⟨?_, h.2⟩
  have h1 := h.1
  cases k with
  | str s => exact ⟨s, rfl⟩
  | nil => simp at h1
  | bool b => simp at h1
  | num m e => simp at h1
  | table kvs => simp at h1

theorem arrKeysFrom_cons {i : Int} {k v : LV} {ents : List (LV × LV)}
    (h : arrKeysFrom i ((k, v) :: ents) = true) :
    k = .num i 0 ∧ arrKeysFrom (i + 1) ents = true := by
  cases k with
  | num m e =>
    cases e with
    | zero =>
      simp only [arrKeysFrom, Bool.and_eq_true, decide_eq_true_eq] at h
      obtain ⟨h1, h2⟩ := h
      subst h1
      exact ⟨rfl, h2⟩
    | succ e => simp [arrKeysFrom] at h
  | nil => simp [arrKeysFrom] at h
  | bool b => simp [arrKeysFrom] at h
  | str s => simp [arrKeysFrom] at h
  | table kvs => simp [arrKeysFrom] at h

theorem RT_arrItems (F : Nat) :
    ∀ (ents : List (LV × LV)) (ss : List (List Char)),
      (∀ kv ∈ ents, ItemProp F kv.2) →
      encodeArrItems ents = .ok ss →
      ∀ lf, needFuelEntries ents ≤ lf →
      ∀ (i : Int), arrKeysFrom i ents = true →
      ents ≠ [] →
      ∀ (acc : List GoJSON) (rest : List Char), headNumCont rest = false →
        ∃ gs, parseArrItems (parseVal F) lf (joinComma ss ++ ']' :: rest) acc =
            some (.arr (acc.reverse ++ gs), rest) ∧
          decodeArrEntries i gs = ents := by
  intro ents
  induction ents with
  | nil => intro ss _ _ _ _ _ _ hne; exact absurd rfl hne
  | cons hd tl ih =>
    obtain ⟨k, v⟩ := hd
    intro ss hprops henc lf hlf i hkeys _ acc rest hrest
    obtain ⟨cs, ss', hv, htl, hss⟩ := encodeArrItems_cons_inv henc
    subst hss
    obtain ⟨hk, hkeys'⟩ := arrKeysFrom_cons hkeys
    obtain ⟨cs0, hcs0, hpar⟩ := hprops (k, v) (List.mem_cons_self _ _)
    have hcseq : cs = cs0 := by
      have := hv.symm.trans hcs0
      simpa using this
    subst hcseq
    cases lf with
    | zero =>
      exfalso
      simp only [needFuelEntries] at hlf
      omega
    | succ lf' =>
      by_cases htl_nil : tl = []
      · subst htl_nil
        have hss' : ss' = [] := by
          have : Except.ok (ε := String) ([] : List (List Char)) = .ok ss' := htl
          simpa using this
        subst hss'
        obtain ⟨g, hg, hdec⟩ := hpar (']' :: rest) rfl
        refine ⟨[g], ?_, ?_⟩
        · show parseArrItems (parseVal F) (lf' + 1) (cs ++ ']' :: rest) acc = _
          simp only [parseArrItems, hg]
          simp
        · simp only [decodeArrEntries, hdec, hk]
      · have hss'ne : ss' ≠ [] := by
          intro hcon
          subst hcon
          cases tl with
          | nil => exact absurd rfl htl_nil
          | cons hd2 tl2 =>
            obtain ⟨k2, v2⟩ := hd2
            obtain ⟨_, _, _, _, habs⟩ := encodeArrItems_cons_inv htl
            exact absurd habs (by simp)
        rw [joinComma_cons_ne hss'ne, List.append_assoc, List.cons_append]
        obtain ⟨g, hg, hdec⟩ := hpar (',' :: (joinComma ss' ++ ']' :: rest)) rfl
        have hlf' : needFuelEntries tl ≤ lf' := by
          simp only [needFuelEntries] at hlf
          omega
        obtain ⟨gs', hloop, hdec'⟩ :=
          ih ss' (fun kv hm => hprops kv (List.mem_cons_of_mem _ hm)) htl lf'
            hlf' (i + 1) hkeys' htl_nil (g :: acc) rest hrest
        refine ⟨g :: gs', ?_, ?_⟩
        · simp only [parseArrItems, hg]
          rw [hloop]
          simp
        · simp only [decodeArrEntries, hdec, hdec', hk]

theorem string_mk_data (s : String) : (⟨s.data⟩ : String) = s := rfl

theorem RT_objItems (F : Nat) :
    ∀ (ents : List (LV × LV)) (ss : List (List Char)),
      (∀ kv ∈ ents, ItemProp F kv.2) →
      encodeObjItems ents = .ok ss →
      ∀ lf, needFuelEntries ents ≤ lf →
      allStrKeys ents = true →
      ents ≠ [] →
      ∀ (acc : List (String × GoJSON)) (rest : List Char), headNumCont rest = false →
        ∃ gs, parseObjItems (parseVal F) lf (joinComma ss ++ '}' :: rest) acc =
            some (.obj (acc.reverse ++ gs), rest) ∧
          decodeObjEntries gs = ents := by
  intro ents
  induction ents with
  | nil => intro ss _ _ _ _ _ hne; exact absurd rfl hne
  | cons hd tl ih =>
    obtain ⟨k, v⟩ := hd
    intro ss hprops henc lf hlf hkeys _ acc rest hrest
    obtain ⟨cs, ss', hv, htl, hss⟩ := encodeObjItems_cons_inv henc
    subst hss
    obtain ⟨⟨sk, hk⟩, hkeys'⟩ := allStrKeys_cons hkeys
    subst hk
    obtain ⟨cs0, hcs0, hpar⟩ := hprops (.str sk, v) (List.mem_cons_self _ _)
    have hcseq : cs = cs0 := by
      have := hv.symm.trans hcs0
      simpa using this
    subst hcseq
    cases lf with
    | zero =>
      exfalso
      simp only [needFuelEntries] at hlf
      omega
    | succ lf' =>
      by_cases htl_nil : tl = []
      · subst htl_nil
        have hss' : ss' = [] := by
          have : Except.ok (ε := String) ([] : List (List Char)) = .ok ss' := htl
          simpa using this
        subst hss'
        obtain ⟨g, hg, hdec⟩ := hpar ('}' :: rest) rfl
        refine ⟨[(sk, g)], ?_, ?_⟩
        · show parseObjItems (parseVal F) (lf' + 1)
            ((keyChars (.str sk) ++ ':' :: cs) ++ '}' :: rest) acc = _
          simp only [keyChars, encStr, List.cons_append, List.append_assoc,
            List.singleton_append]
          simp only [parseObjItems, parseStrBody_escString, List.nil_append]
          simp only [hg]
          simp
        · simp only [decodeObjEntries, hdec]
      · have hss'ne : ss' ≠ [] := by
          intro hcon
          subst hcon
          cases tl with
          | nil => exact absurd rfl htl_nil
          | cons hd2 tl2 =>
            obtain ⟨k2, v2⟩ := hd2
            obtain ⟨_, _, _, _, habs⟩ := encodeObjItems_cons_inv htl
            exact absurd habs (by simp)
        rw [joinComma_cons_ne hss'ne, List.append_assoc, List.cons_append]
        obtain ⟨g, hg, hdec⟩ := hpar (',' :: (joinComma ss' ++ '}' :: rest)) rfl
        have hlf' : needFuelEntries tl ≤ lf' := by
          simp only [needFuelEntries] at hlf
          omega
        obtain ⟨gs', hloop, hdec'⟩ :=
          ih ss' (fun kv hm => hprops kv (List.mem_cons_of_mem _ hm)) htl lf'
            hlf' hkeys' htl_nil ((sk, g) :: acc) rest hrest
        refine ⟨(sk, g) :: gs', ?_, ?_⟩
        · show parseObjItems (parseVal F) (lf' + 1)
            ((keyChars (.str sk) ++ ':' :: cs) ++
              (',' :: (joinComma ss' ++ '}' :: rest))) acc = _
          simp only [keyChars, encStr, List.cons_append, List.append_assoc,
            List.singleton_append]
          simp only [parseObjItems, parseStrBody_escString, List.nil_append]
          simp only [hg]
          simp only [List.reverse_nil, List.nil_append, string_mk_data]
          rw [hloop]
          simp
        · simp only [decodeObjEntries, hdec, hdec']

theorem encodeVal_head {v : LV} {cs : List Char} (h : encodeVal v = .ok cs) :
    ∃ c t, cs = c :: t ∧ c ≠ ']' ∧ c ≠ '}' := by
  cases v with
  | nil =>
    simp only [encodeVal, Except.ok.injEq] at h
    exact ⟨'n', _, h.symm, by decide, by decide⟩
  | bool b =>
    cases b <;> simp only [encodeVal, Except.ok.injEq] at h
    · exact ⟨'f', _, h.symm, by decide, by decide⟩
    · exact ⟨'t', _, h.symm, by decide, by decide⟩
  | num m e =>
    simp only [encodeVal, Except.ok.injEq] at h
    subst h
    rcases Nat.eq_zero_or_pos e with he | he
    · subst he
      rw [decChars, if_pos rfl]
      by_cases hn : m < 0
      · exact ⟨'-', _, by rw [intChars, if_pos hn], by decide, by decide⟩
      · obtain ⟨c, cs', heq⟩ : ∃ c cs', natChars m.natAbs = c :: cs' := by
          rcases hne : natChars m.natAbs with _ | ⟨c, cs'⟩
          · exact absurd hne (natCharsAux_ne_nil (by omega))
          · exact ⟨c, cs', rfl⟩
        have hdig : isDig c = true := by
          have := natCharsAux_digits (m.natAbs + 1) m.natAbs c
          rw [natChars] at heq
          exact this (heq ▸ List.mem_cons_self c cs')
        obtain ⟨_, _, _, _, _, _, _, h8, h9, _⟩ := isDig_not_special hdig
        exact ⟨c, cs', by rw [intChars, if_neg hn, heq], h8, h9⟩
    · have hne : e ≠ 0 := by omega
      rw [decChars, if_neg hne]
      by_cases hn : m < 0
      · refine ⟨'-',
          List.take ((padDigits (natChars m.natAbs) e).length - e)
              (padDigits (natChars m.natAbs) e) ++
            '.' :: List.drop ((padDigits (natChars m.natAbs) e).length - e)
              (padDigits (natChars m.natAbs) e), ?_, by decide, by decide⟩
        simp only [if_pos hn, List.cons_append, List.nil_append]
      · have hpl := padDigits_length (natChars m.natAbs) e
        have hiplen : (List.take ((padDigits (natChars m.natAbs) e).length - e)
            (padDigits (natChars m.natAbs) e)).length =
            (padDigits (natChars m.natAbs) e).length - e := by
          simp only [List.length_take]
          omega
        obtain ⟨c, cs', heq⟩ : ∃ c cs',
            List.take ((padDigits (natChars m.natAbs) e).length - e)
              (padDigits (natChars m.natAbs) e) = c :: cs' := by
          rcases hx : List.take ((padDigits (natChars m.natAbs) e).length - e)
              (padDigits (natChars m.natAbs) e) with _ | ⟨c, cs'⟩
          · rw [hx] at hiplen
            simp only [List.length_nil] at hiplen
            omega
          · exact ⟨c, cs', rfl⟩
        have hdig : isDig c = true := by
          have hmem : c ∈ padDigits (natChars m.natAbs) e :=
            List.take_subset _ _ (heq ▸ List.mem_cons_self c cs')
          exact padDigits_digits e (natCharsAux_digits _ _) c hmem
        obtain ⟨_, _, _, _, _, _, _, h8, h9, _⟩ := isDig_not_special hdig
        refine ⟨c, cs' ++ '.' :: List.drop ((padDigits (natChars m.natAbs) e).length - e)
            (padDigits (natChars m.natAbs) e), ?_, h8, h9⟩
        simp only [if_neg hn, List.nil_append, heq, List.cons_append]
  | str s =>
    simp only [encodeVal, Except.ok.injEq] at h
    exact ⟨'"', _, h.symm, by decide, by decide⟩
  | table kvs =>
    rw [encodeVal] at h
    cases hcl : classify kvs with
    | arr =>
      rw [hcl] at h
      cases hi : encodeArrItems kvs with
      | error e => rw [hi] at h; exact absurd h (by simp)
      | ok ss =>
        rw [hi] at h
        simp only [Except.ok.injEq] at h
        exact ⟨'[', _, h.symm, by decide, by decide⟩
    | obj =>
      rw [hcl] at h
      cases hi : encodeObjItems kvs with
      | error e => rw [hi] at h; exact absurd h (by simp)
      | ok ss =>
        rw [hi] at h
        simp only [Except.ok.injEq] at h
        exact ⟨'{', _, h.symm, by decide, by decide⟩
    | sparse => rw [hcl] at h; exact absurd h (by simp)
    | mixed => rw [hcl] at h; exact absurd h (by simp)



theorem needFuel_pos (v : LV) : 1 ≤ needFuel v := by
  cases v with
  | table kvs => simp only [needFuel]; omega
  | nil => exact le_rfl
  | bool b => exact le_rfl
  | num n => exact le_rfl
  | str s => exact le_rfl

theorem RT_main :
    ∀ (N : Nat) (v : LV), needFuel v ≤ N → isValidB v = true →
      ∀ F, needFuel v ≤ F → ItemProp F v := by
  intro N
  induction N with
  | zero =>
    intro v hN _ _ _
    exact absurd hN (by have := needFuel_pos v; omega)
  | succ N ihN =>
    intro v hN hval F hF
    have hFpos : 1 ≤ F := le_trans (needFuel_pos v) hF
    obtain ⟨F', rfl⟩ : ∃ F', F = F' + 1 := ⟨F - 1, by omega⟩
    cases v with
    | nil =>
      exact ⟨"null".data, rfl, fun rest hrest =>
        ⟨.null, parseVal_null F' rest, rfl⟩⟩
    | bool b =>
      cases b
      · exact ⟨"false".data, rfl, fun rest hrest =>
          ⟨.bool false, parseVal_false F' rest, rfl⟩⟩
      · exact ⟨"true".data, rfl, fun rest hrest =>
          ⟨.bool true, parseVal_true F' rest, rfl⟩⟩
    | num m e =>
      exact ⟨decChars m e, rfl, fun rest hrest =>
        ⟨.num m e, parseVal_decChars F' m e rest hrest, rfl⟩⟩
    | str s =>
      exact ⟨encStr s, rfl, fun rest hrest =>
        ⟨.str s, parseVal_encStr F' s rest, rfl⟩⟩
    | table kvs =>
      simp only [isValidB, Bool.and_eq_true, Bool.or_eq_true] at hval
      have hneed : needFuel (.table kvs) = 1 + needFuelEntries kvs := rfl
      have hprops : ∀ kv ∈ kvs, ItemProp F' kv.2 := by
        intro kv hm
        have hb := needFuelEntries_mem kvs kv hm
        exact ihN kv.2 (by omega) (entriesValidB_mem kvs hval.2 kv hm) F'
          (by omega)
      have hencok : ∀ kv ∈ kvs, ∃ cs, encodeVal kv.2 = .ok cs :=
        fun kv hm => ⟨(hprops kv hm).choose, (hprops kv hm).choose_spec.1⟩
      by_cases harr : arrKeysFrom 1 kvs = true
      · have hcl : classify kvs = .arr := by rw [classify, if_pos harr]
        by_cases hnil : kvs = []
        · subst hnil
          refine ⟨['[', ']'], rfl, ?_⟩
          intro rest hrest
          refine ⟨.arr [], ?_, rfl⟩
          show parseVal (F' + 1) ('[' :: ']' :: rest) = some (.arr [], rest)
          simp +decide [parseVal]
        · obtain ⟨ss, hss, hlen⟩ := encodeArrItems_ok kvs hencok
          refine ⟨'[' :: (joinComma ss ++ [']']), ?_, ?_⟩
          · simp only [encodeVal, hcl, hss]
          · intro rest hrest
            obtain ⟨hd, tl, rfl⟩ : ∃ hd tl, kvs = hd :: tl := by
              cases kvs with
              | nil => exact absurd rfl hnil
              | cons hd tl => exact ⟨hd, tl, rfl⟩
            obtain ⟨k0, v0⟩ := hd
            obtain ⟨cs0, ss2, hv0, htl0, rfl⟩ := encodeArrItems_cons_inv hss
            obtain ⟨c0, t0, hcst, hne1, _⟩ := encodeVal_head hv0
            have hW : needFuelEntries ((k0, v0) :: tl) ≤ F' := by omega
            obtain ⟨gs, hloop, hdecode⟩ :=
              RT_arrItems F' ((k0, v0) :: tl) (cs0 :: ss2) hprops hss F' hW 1
                harr hnil [] rest hrest
            refine ⟨.arr gs, ?_, ?_⟩
            · have hli : ('[' :: (joinComma (cs0 :: ss2) ++ [']'])) ++ rest =
                  '[' :: (joinComma (cs0 :: ss2) ++ ']' :: rest) := by simp
              rw [hli]
              have hhead : (joinComma (cs0 :: ss2) ++ ']' :: rest).head? ≠
                  some ']' := by
                obtain ⟨X, hX⟩ := joinComma_head cs0 ss2
                rw [hX, hcst]
                simp [hne1]
              simp only [parseVal]
              simp +decide only [if_false, if_true]
              rw [if_neg hhead, hloop]
              simp
            · simp only [DecodeValue, hdecode]
      · have hstr : allStrKeys kvs = true := hval.1.resolve_left harr
        have hcl : classify kvs = .obj := by
          rw [classify, if_neg (by simp [harr]), if_pos hstr]
        have hnil : kvs ≠ [] := by
          intro h
          subst h
          exact harr rfl
        obtain ⟨ss, hss, hlen⟩ := encodeObjItems_ok kvs hencok
        refine ⟨'{' :: (joinComma ss ++ ['}']), ?_, ?_⟩
        · simp only [encodeVal, hcl, hss]
        · intro rest hrest
          obtain ⟨hd, tl, rfl⟩ : ∃ hd tl, kvs = hd :: tl := by
            cases kvs with
            | nil => exact absurd rfl hnil
            | cons hd tl => exact ⟨hd, tl, rfl⟩
          obtain ⟨k0, v0⟩ := hd
          obtain ⟨cs0, ss2, hv0, htl0, rfl⟩ := encodeObjItems_cons_inv hss
          have hW : needFuelEntries ((k0, v0) :: tl) ≤ F' := by omega
          obtain ⟨gs, hloop, hdecode⟩ :=
            RT_objItems F' ((k0, v0) :: tl) _ hprops hss F' hW hstr hnil []
              rest hrest
          refine ⟨.obj gs, ?_, ?_⟩
          · have hli : ('{' :: (joinComma ((keyChars k0 ++ ':' :: cs0) :: ss2)
                ++ ['}'])) ++ rest =
                '{' :: (joinComma ((keyChars k0 ++ ':' :: cs0) :: ss2) ++
                  '}' :: rest) := by simp
            rw [hli]
            obtain ⟨⟨sk, hk⟩, _⟩ := allStrKeys_cons hstr
            have hhead : (joinComma ((keyChars k0 ++ ':' :: cs0) :: ss2) ++
                '}' :: rest).head? ≠ some '}' := by
              obtain ⟨X, hX⟩ := joinComma_head (keyChars k0 ++ ':' :: cs0) ss2
              rw [hX, hk]
              simp only [keyChars, encStr]
              simp +decide
            simp only [parseVal]
            simp +decide only [if_false, if_true]
            rw [if_neg hhead, hloop]
            simp
          · simp only [DecodeValue, hdecode]

end GluaJson

namespace GluaJson

theorem arrItems_len :
    ∀ (ents : List (LV × LV)) (ss : List (List Char)),
      encodeArrItems ents = .ok ss →
      (∀ kv ∈ ents, ∀ cs, encodeVal kv.2 = .ok cs → needFuel kv.2 ≤ cs.length) →
      needFuelEntries ents ≤ (joinComma ss).length + 1 := by
  intro ents
  induction ents with
  | nil =>
    intro ss henc _
    have hss : ss = [] := by simpa [encodeArrItems] using henc.symm
    subst hss
    simp [needFuelEntries, joinComma]
  | cons hd tl ih =>
    obtain ⟨k, v⟩ := hd
    intro ss henc hpt
    obtain ⟨cs, ss', hv, htl, rfl⟩ := encodeArrItems_cons_inv henc
    have hcs : needFuel v ≤ cs.length :=
      hpt (k, v) (List.mem_cons_self _ _) cs hv
    by_cases hnil : tl = []
    · subst hnil
      have hss' : ss' = [] := by simpa [encodeArrItems] using htl.symm
      subst hss'
      show 1 + needFuel v + needFuelEntries [] ≤ _
      simp only [needFuelEntries, joinComma]
      omega
    · have hss'ne : ss' ≠ [] := by
        intro hcon
        subst hcon
        cases tl with
        | nil => exact absurd rfl hnil
        | cons hd2 tl2 =>
          obtain ⟨k2, v2⟩ := hd2
          obtain ⟨_, _, _, _, habs⟩ := encodeArrItems_cons_inv htl
          exact absurd habs (by simp)
      have hrec := ih ss' htl (fun kv hm => hpt kv (List.mem_cons_of_mem _ hm))
      show 1 + needFuel v + needFuelEntries tl ≤ _
      rw [joinComma_cons_ne hss'ne]
      simp only [List.length_append, List.length_cons]
      omega

theorem objItems_len :
    ∀ (ents : List (LV × LV)) (ss : List (List Char)),
      encodeObjItems ents = .ok ss →
      (∀ kv ∈ ents, ∀ cs, encodeVal kv.2 = .ok cs → needFuel kv.2 ≤ cs.length) →
      needFuelEntries ents ≤ (joinComma ss).length + 1 := by
  intro ents
  induction ents with
  | nil =>
    intro ss henc _
    have hss : ss = [] := by simpa [encodeObjItems] using henc.symm
    subst hss
    simp [needFuelEntries, joinComma]
  | cons hd tl ih =>
    obtain ⟨k, v⟩ := hd
    intro ss henc hpt
    obtain ⟨cs, ss', hv, htl, rfl⟩ := encodeObjItems_cons_inv henc
    have hcs : needFuel v ≤ cs.length :=
      hpt (k, v) (List.mem_cons_self _ _) cs hv
    by_cases hnil : tl = []
    · subst hnil
      have hss' : ss' = [] := by simpa [encodeObjItems] using htl.symm
      subst hss'
      show 1 + needFuel v + needFuelEntries [] ≤ _
      simp only [needFuelEntries, joinComma, List.length_append,
        List.length_cons]
      omega
    · have hss'ne : ss' ≠ [] := by
        intro hcon
        subst hcon
        cases tl with
        | nil => exact absurd rfl hnil
        | cons hd2 tl2 =>
          obtain ⟨k2, v2⟩ := hd2
          obtain ⟨_, _, _, _, habs⟩ := encodeObjItems_cons_inv htl
          exact absurd habs (by simp)
      have hrec := ih ss' htl (fun kv hm => hpt kv (List.mem_cons_of_mem _ hm))
      show 1 + needFuel v + needFuelEntries tl ≤ _
      rw [joinComma_cons_ne hss'ne]
      simp only [List.length_append, List.length_cons]
      omega

theorem needFuel_le_len :
    ∀ (N : Nat) (v : LV), needFuel v ≤ N →
      ∀ cs, encodeVal v = .ok cs → needFuel v ≤ cs.length := by
  intro N
  induction N with
  | zero =>
    intro v hN
    exact absurd hN (by have := needFuel_pos v; omega)
  | succ N ihN =>
    intro v hN cs henc
    cases v with
    | nil =>
      have hcs : cs = "null".data := by simpa [encodeVal] using henc.symm
      subst hcs
      exact le_of_eq rfl |>.trans (by simp [needFuel])
    | bool b =>
      cases b
      · have hcs : cs = "false".data := by simpa [encodeVal] using henc.symm
        subst hcs
        simp [needFuel]
      · have hcs : cs = "true".data := by simpa [encodeVal] using henc.symm
        subst hcs
        simp [needFuel]
    | num m e =>
      obtain ⟨c, t, hct, _, _⟩ := encodeVal_head henc
      subst hct
      show 1 ≤ (c :: t).length
      simp
    | str s =>
      have hcs : cs = encStr s := by simpa [encodeVal] using henc.symm
      subst hcs
      show 1 ≤ _
      simp [encStr]
    | table kvs =>
      have hpt : ∀ kv ∈ kvs, ∀ cs', encodeVal kv.2 = .ok cs' →
          needFuel kv.2 ≤ cs'.length := by
        intro kv hm cs' henc'
        have hb := needFuelEntries_mem kvs kv hm
        have hneed : needFuel (.table kvs) = 1 + needFuelEntries kvs := rfl
        exact ihN kv.2 (by omega) cs' henc'
      rw [encodeVal] at henc
      cases hcl : classify kvs with
      | arr =>
        rw [hcl] at henc
        cases hi : encodeArrItems kvs with
        | error e => rw [hi] at henc; exact absurd henc (by simp)
        | ok ss =>
          rw [hi] at henc
          simp only [Except.ok.injEq] at henc
          subst henc
          have hil := arrItems_len kvs ss hi hpt
          show 1 + needFuelEntries kvs ≤ _
          simp only [List.length_cons, List.length_append,
            List.length_singleton]
          omega
      | obj =>
        rw [hcl] at henc
        cases hi : encodeObjItems kvs with
        | error e => rw [hi] at henc; exact absurd henc (by simp)
        | ok ss =>
          rw [hi] at henc
          simp only [Except.ok.injEq] at henc
          subst henc
          have hil := objItems_len kvs ss hi hpt
          show 1 + needFuelEntries kvs ≤ _
          simp only [List.length_cons, List.length_append,
            List.length_singleton]
          omega
      | sparse => rw [hcl] at henc; exact absurd henc (by simp)
      | mixed => rw [hcl] at henc; exact absurd henc (by simp)

end GluaJson

namespace GluaJson

theorem arrKeysFrom_imp_allInt :
    ∀ (i : Int) (kvs : List (LV × LV)),
      arrKeysFrom i kvs = true → allIntKeys kvs = true := by
  intro i kvs
  induction kvs generalizing i with
  | nil => intro _; rfl
  | cons hd tl ih =>
    obtain ⟨k, v⟩ := hd
    intro h
    obtain ⟨hk, htl⟩ := arrKeysFrom_cons h
    subst hk
    simp only [allIntKeys, List.all_cons, Bool.and_eq_true]
    exact ⟨by trivial, ih (i + 1) htl⟩

end GluaJson

/-- C1: for every Dynamic Value tree without cyclic references in which
every Table is pure-array (keys exactly 1..N) or pure-object (all string
keys), decoding the text produced by encoding the tree yields a value
structurally equal to it (here literally equal, which also covers equality
up to object key order). -/
theorem C1_decode_encode_roundtrip (v : LV)
    (hval : GluaJson.isValidB v = true) :
    ∃ s, GluaJson.Encode v = .ok s ∧ GluaJson.Decode s = .ok v := by
  obtain ⟨cs, hcs, _⟩ :=
    GluaJson.RT_main (GluaJson.needFuel v) v le_rfl hval (GluaJson.needFuel v)
      le_rfl
  have hlen := GluaJson.needFuel_le_len (GluaJson.needFuel v) v le_rfl cs hcs
  obtain ⟨cs2, hcs2, hpar2⟩ :=
    GluaJson.RT_main (GluaJson.needFuel v) v le_rfl hval (cs.length + 1)
      (by omega)
  have hcseq : cs = cs2 := by
    have := hcs.symm.trans hcs2
    simpa using this
  subst hcseq
  refine ⟨⟨cs⟩, ?_, ?_⟩
  · simp only [GluaJson.Encode, hcs]
  · obtain ⟨g, hg, hdec⟩ := hpar2 [] rfl
    rw [List.append_nil] at hg
    show GluaJson.Decode ⟨cs⟩ = .ok v
    simp only [GluaJson.Decode]
    have hl : (⟨cs⟩ : String).length = cs.length := rfl
    rw [hl, hg]
    show Except.ok (GluaJson.DecodeValue g) = Except.ok v
    rw [hdec]

/-- Witness for C1 at the object of TestSimple: a pure-object table with a
string field and an integral number field round-trips. -/
theorem C1_decode_encode_roundtrip_witness :
    GluaJson.isValidB
        (.table [(.str "name", .str "Tim"), (.str "number", .num 12345 0),
          (.str "pi", .num 314 2)]) = true ∧
    ∃ s, GluaJson.Encode
          (.table [(.str "name", .str "Tim"), (.str "number", .num 12345 0),
            (.str "pi", .num 314 2)]) =
        .ok s ∧
      GluaJson.Decode s =
        .ok (.table [(.str "name", .str "Tim"), (.str "number", .num 12345 0),
          (.str "pi", .num 314 2)]) :=
  ⟨by decide, C1_decode_encode_roundtrip _ (by decide)⟩

/-- Grounding of the decimal Number model at the float case of TestEncode:
the non-integer Number 3.14 (significand 314, two fraction digits) encodes
to the text 3.14, which decodes back to the same Number. -/
theorem encode_float_three_point_one_four :
    GluaJson.Encode (.num 314 2) = .ok "3.14" ∧
    GluaJson.Decode "3.14" = .ok (.num 314 2) := ⟨rfl, rfl⟩

/-- C2: a Table whose keys are neither exactly the contiguous integers 1..N
nor all strings fails to encode: with the sparse-array message when all
keys are integers, and with the mixed-or-invalid-key-types message
otherwise (integer keys mixed with string keys, or Boolean/Table keys). -/
theorem C2_invalid_key_encode_errors (kvs : List (LV × LV)) :
    (GluaJson.allIntKeys kvs = true → GluaJson.arrKeysFrom 1 kvs = false →
      GluaJson.Encode (.table kvs) = .error "cannot encode sparse array") ∧
    (GluaJson.allIntKeys kvs = false → GluaJson.allStrKeys kvs = false →
      GluaJson.Encode (.table kvs) =
        .error "cannot encode mixed or invalid key types") := by
  constructor
  · intro hint harr
    have hstr : GluaJson.allStrKeys kvs = false := by
      cases kvs with
      | nil => exact absurd harr (by simp [GluaJson.arrKeysFrom])
      | cons hd tl =>
        obtain ⟨k, v⟩ := hd
        simp only [GluaJson.allIntKeys, List.all_cons, Bool.and_eq_true]
          at hint
        cases k with
        | num m e => simp [GluaJson.allStrKeys]
        | nil => simp at hint
        | bool b => simp at hint
        | str s => simp at hint
        | table kvs2 => simp at hint
    have hcl : GluaJson.classify kvs = .sparse := by
      rw [GluaJson.classify, if_neg (by simp [harr]), if_neg (by simp [hstr]),
        if_pos hint]
    simp only [GluaJson.Encode, GluaJson.encodeVal, hcl]
  · intro hint hstr
    have harr : GluaJson.arrKeysFrom 1 kvs = false := by
      cases hc : GluaJson.arrKeysFrom 1 kvs with
      | false => rfl
      | true =>
        have hai := GluaJson.arrKeysFrom_imp_allInt 1 kvs hc
        rw [hint] at hai
        exact absurd hai Bool.false_ne_true
    have hcl : GluaJson.classify kvs = .mixed := by
      rw [GluaJson.classify, if_neg (by simp [harr]), if_neg (by simp [hstr]),
        if_neg (by simp [hint])]
    simp only [GluaJson.Encode, GluaJson.encodeVal, hcl]

/-- Witness for C2 at the inputs of TestEncode: integer keys 1 and 3 give
the sparse-array error, a string key mixed with an integer key gives the
mixed-or-invalid-key-types error. -/
theorem C2_invalid_key_encode_errors_witness :
    GluaJson.Encode (.table [(.num 1 0, .num 1 0), (.num 3 0, .num 3 0)]) =
        .error "cannot encode sparse array" ∧
    GluaJson.Encode
        (.table [(.str "name", .str "test"), (.num 1 0, .num 42 0)]) =
        .error "cannot encode mixed or invalid key types" :=
  ⟨(C2_invalid_key_encode_errors _).1 (by decide) (by decide),
   (C2_invalid_key_encode_errors _).2 (by decide) (by decide)⟩

/-- C7: an arbitrary-precision JSON Number encountered while decoding is
converted to a Dynamic String holding its exact textual representation,
never to a Dynamic Number. -/
theorem C7_json_number_decodes_to_string :
    (∀ s : String, GluaJson.DecodeValue (.jnum s) = .str s) ∧
    GluaJson.DecodeValue (.jnum "124.11") = .str "124.11" ∧
    (∀ (s : String) (n : Int) (e : Nat),
      GluaJson.DecodeValue (.jnum s) ≠ .num n e) := by
  refine ⟨fun s => rfl, rfl, fun s n e h => ?_⟩
  exact LV.noConfusion h

/-- C4: every binding that wraps a native function with an error-like
secondary result (the regex family, encryptAES/decryptAES, encode/decode)
pushes exactly two values: Nil then a String describing the failure when
the native call fails, and the result then Nil when it succeeds. -/
theorem C4_two_value_convention :
    (∀ (v : LV) (e : String), GluaJson.Encode v = .error e →
      GluaJson.apiEncode v = [.nil, .str e]) ∧
    (∀ (v : LV) (s : String), GluaJson.Encode v = .ok s →
      GluaJson.apiEncode v = [.str s, .nil]) ∧
    (∀ (s e : String), GluaJson.Decode s = .error e →
      GluaJson.apiDecode s = [.nil, .str e]) ∧
    (∀ (s : String) (v : LV), GluaJson.Decode s = .ok v →
      GluaJson.apiDecode s = [v, .nil]) ∧
    (∀ v, (GluaJson.apiEncode v).length = 2) ∧
    (∀ s, (GluaJson.apiDecode s).length = 2) ∧
    (∀ (R : Type) (compile : String → Except String R) (find p0 p1 e),
      compile p0 = .error e →
      GluaSprig.RegexFindFunc compile find p0 p1 = [.nil, .str e]) ∧
    (∀ (R : Type) (compile : String → Except String R) (find p0 p1 r),
      compile p0 = .ok r →
      GluaSprig.RegexFindFunc compile find p0 p1 = [.str (find r p1), .nil]) ∧
    (∀ (R : Type) (compile : String → Except String R) (findAll p0 p1 p2 e),
      compile p0 = .error e →
      GluaSprig.RegexFindAllFunc compile findAll p0 p1 p2 = [.nil, .str e]) ∧
    (∀ (R : Type) (compile : String → Except String R) (findAll p0 p1 p2 r),
      compile p0 = .ok r →
      GluaSprig.RegexFindAllFunc compile findAll p0 p1 p2 =
        [.table (GluaJson.arrEntriesFrom 1 ((findAll r p1 p2).map .str)),
          .nil]) ∧
    (∀ (matchString : String → String → Except String Bool) (p0 p1 e),
      matchString p0 p1 = .error e →
      GluaSprig.RegexMatchFunc matchString p0 p1 = [.nil, .str e]) ∧
    (∀ (matchString : String → String → Except String Bool) (p0 p1 b),
      matchString p0 p1 = .ok b →
      GluaSprig.RegexMatchFunc matchString p0 p1 = [.bool b, .nil]) ∧
    (∀ (R : Type) (compile : String → Except String R) (rep p0 p1 p2 e),
      compile p0 = .error e →
      GluaSprig.RegexReplaceAllFunc compile rep p0 p1 p2 = [.nil, .str e]) ∧
    (∀ (R : Type) (compile : String → Except String R) (rep p0 p1 p2 r),
      compile p0 = .ok r →
      GluaSprig.RegexReplaceAllFunc compile rep p0 p1 p2 =
        [.str (rep r p1 p2), .nil]) ∧
    (∀ (R : Type) (compile : String → Except String R) (rep p0 p1 p2 e),
      compile p0 = .error e →
      GluaSprig.RegexReplaceAllLiteralFunc compile rep p0 p1 p2 =
        [.nil, .str e]) ∧
    (∀ (R : Type) (compile : String → Except String R) (rep p0 p1 p2 r),
      compile p0 = .ok r →
      GluaSprig.RegexReplaceAllLiteralFunc compile rep p0 p1 p2 =
        [.str (rep r p1 p2), .nil]) ∧
    (∀ (R : Type) (compile : String → Except String R) (split p0 p1 p2 e),
      compile p0 = .error e →
      GluaSprig.RegexSplitFunc compile split p0 p1 p2 = [.nil, .str e]) ∧
    (∀ (R : Type) (compile : String → Except String R) (split p0 p1 p2 r),
      compile p0 = .ok r →
      GluaSprig.RegexSplitFunc compile split p0 p1 p2 =
        [.table (GluaJson.arrEntriesFrom 1 ((split r p1 p2).map .str)),
          .nil]) ∧
    (∀ (fn : String → String → PanicOr (Except String String)) (p0 p1 e),
      fn p0 p1 = .value (.error e) →
      GluaSprig.EncryptAESFunc fn p0 p1 = .ok [.nil, .str e]) ∧
    (∀ (fn : String → String → PanicOr (Except String String)) (p0 p1 s),
      fn p0 p1 = .value (.ok s) →
      GluaSprig.EncryptAESFunc fn p0 p1 = .ok [.str s, .nil]) ∧
    (∀ (fn : String → String → PanicOr (Except String String)) (p0 p1 e),
      fn p0 p1 = .value (.error e) →
      GluaSprig.DecryptAESFunc fn p0 p1 = .ok [.nil, .str e]) ∧
    (∀ (fn : String → String → PanicOr (Except String String)) (p0 p1 s),
      fn p0 p1 = .value (.ok s) →
      GluaSprig.DecryptAESFunc fn p0 p1 = .ok [.str s, .nil]) := by
  refine ⟨?_, ?_, ?_, ?_, ?_, ?_, ?_, ?_, ?_, ?_, ?_, ?_, ?_, ?_, ?_, ?_,
    ?_, ?_, ?_, ?_, ?_, ?_⟩
  · intro v e h; simp [GluaJson.apiEncode, h]
  · intro v s h; simp [GluaJson.apiEncode, h]
  · intro s e h; simp [GluaJson.apiDecode, h]
  · intro s v h; simp [GluaJson.apiDecode, h]
  · intro v
    cases h : GluaJson.Encode v <;> simp [GluaJson.apiEncode, h]
  · intro s
    cases h : GluaJson.Decode s <;> simp [GluaJson.apiDecode, h]
  · intro R compile find p0 p1 e h; simp [GluaSprig.RegexFindFunc, h]
  · intro R compile find p0 p1 r h; simp [GluaSprig.RegexFindFunc, h]
  · intro R compile findAll p0 p1 p2 e h
    simp [GluaSprig.RegexFindAllFunc, h]
  · intro R compile findAll p0 p1 p2 r h
    simp [GluaSprig.RegexFindAllFunc, h]
  · intro matchString p0 p1 e h; simp [GluaSprig.RegexMatchFunc, h]
  · intro matchString p0 p1 b h; simp [GluaSprig.RegexMatchFunc, h]
  · intro R compile rep p0 p1 p2 e h
    simp [GluaSprig.RegexReplaceAllFunc, h]
  · intro R compile rep p0 p1 p2 r h
    simp [GluaSprig.RegexReplaceAllFunc, h]
  · intro R compile rep p0 p1 p2 e h
    simp [GluaSprig.RegexReplaceAllLiteralFunc, h]
  · intro R compile rep p0 p1 p2 r h
    simp [GluaSprig.RegexReplaceAllLiteralFunc, h]
  · intro R compile split p0 p1 p2 e h
    simp [GluaSprig.RegexSplitFunc, h]
  · intro R compile split p0 p1 p2 r h
    simp [GluaSprig.RegexSplitFunc, h]
  · intro fn p0 p1 e h; simp [GluaSprig.EncryptAESFunc, h]
  · intro fn p0 p1 s h; simp [GluaSprig.EncryptAESFunc, h]
  · intro fn p0 p1 e h; simp [GluaSprig.DecryptAESFunc, h]
  · intro fn p0 p1 s h; simp [GluaSprig.DecryptAESFunc, h]

/-- Witness for C4: a failing regex compile pushes Nil then the message, a
succeeding compile pushes the result then Nil, and a sparse-array encode
failure surfaces through the two-value convention of the encode binding. -/
theorem C4_two_value_convention_witness :
    GluaSprig.RegexFindFunc (R := Unit) (fun _ => .error "bad pattern")
        (fun _ s => s) "(" "abc" = [.nil, .str "bad pattern"] ∧
    GluaSprig.RegexFindFunc (R := Unit) (fun _ => .ok ())
        (fun _ _ => "found") "a" "abc" = [.str "found", .nil] ∧
    GluaJson.apiEncode (.table [(.num 1 0, .num 1 0), (.num 3 0, .num 3 0)]) =
      [.nil, .str "cannot encode sparse array"] :=
  ⟨C4_two_value_convention.2.2.2.2.2.2.1 Unit (fun _ => .error "bad pattern")
      (fun _ s => s) "(" "abc" "bad pattern" rfl,
   C4_two_value_convention.2.2.2.2.2.2.2.1 Unit (fun _ => .ok ())
      (fun _ _ => "found") "a" "abc" () rfl,
   C4_two_value_convention.1 _ "cannot encode sparse array" rfl⟩

/-- C5 counterexample: called in reverse order (min=10, max=5) randInt does
not clamp/swap the pair: it returns 10 (min unchanged) without consulting
the random source, and the result is not an integer between 5 and 10
drawn from the source. -/
theorem C5_counterexample :
    GluaSprig.RandIntFunc (fun _ => 0) 10 5 = (10, false) ∧
    ¬((GluaSprig.RandIntFunc (fun _ => 0) 10 5).2 = true ∧
      5 ≤ (GluaSprig.RandIntFunc (fun _ => 0) 10 5).1 ∧
      (GluaSprig.RandIntFunc (fun _ => 0) 10 5).1 < 10) := by
  decide

/-- C5 amended: randInt returns min unchanged without invoking the random
source whenever max ≤ min, including reverse-order input (the swap branch
of the source is unreachable); when min < max it consults the source and
returns rand.Intn(max-min)+min, an integer between min (inclusive) and max
(exclusive) for any source respecting the rand.Intn contract. -/
theorem C5_randInt_amended (randIntn : Int → Int) (min max : Int) :
    (max ≤ min → GluaSprig.RandIntFunc randIntn min max = (min, false)) ∧
    (min < max → GluaSprig.RandIntFunc randIntn min max =
        (randIntn (max - min) + min, true)) ∧
    (min < max → (∀ n, 0 < n → 0 ≤ randIntn n ∧ randIntn n < n) →
      min ≤ (GluaSprig.RandIntFunc randIntn min max).1 ∧
      (GluaSprig.RandIntFunc randIntn min max).1 < max) := by
  have hdraw : min < max →
      GluaSprig.RandIntFunc randIntn min max =
        (randIntn (max - min) + min, true) := by
    intro h
    rw [GluaSprig.RandIntFunc, if_neg (by omega)]
    rw [if_neg (by omega)]
  refine ⟨?_, hdraw, ?_⟩
  · intro h
    rw [GluaSprig.RandIntFunc, if_pos (Or.inr h)]
  · intro h hr
    rw [hdraw h]
    have := hr (max - min) (by omega)
    constructor <;> simp <;> omega

/-- Witness for C5 amended: randInt(5,5) is 5 without consulting the
source, and randInt(1,5) with a source returning 2 is 3 having consulted
it. -/
theorem C5_randInt_amended_witness :
    GluaSprig.RandIntFunc (fun _ => 99) 5 5 = (5, false) ∧
    GluaSprig.RandIntFunc (fun _ => 2) 1 5 = (3, true) :=
  ⟨(C5_randInt_amended (fun _ => 99) 5 5).1 (by decide),
   by
    have := (C5_randInt_amended (fun _ => 2) 1 5).2.1 (by decide)
    simpa using this⟩

/-- C6: toDecimal coerces its argument to text (a string is kept, a number
uses its display form, true becomes 1 and false 0, nil becomes 0, any
other value uses its display form, an identity-dependent string for a
table), parses the text as base 8 and returns the parsed integer, with 0
rather than an error on invalid text; the string 177 gives 127 and the
invalid octal string 8 gives 0. -/
theorem C6_toDecimal_coercion (d : String) :
    (∀ s : String, GluaSprig.ToDecimalFunc d (.str s) =
        (GluaSprig.parseOct s).getD 0) ∧
    (∀ n : Int, GluaSprig.ToDecimalFunc d (.num n 0) =
        (GluaSprig.parseOct (toString n)).getD 0) ∧
    GluaSprig.ToDecimalFunc d (.bool true) =
      (GluaSprig.parseOct "1").getD 0 ∧
    GluaSprig.ToDecimalFunc d (.bool false) =
      (GluaSprig.parseOct "0").getD 0 ∧
    GluaSprig.ToDecimalFunc d .nil = (GluaSprig.parseOct "0").getD 0 ∧
    (∀ kvs, GluaSprig.ToDecimalFunc d (.table kvs) =
        (GluaSprig.parseOct d).getD 0) ∧
    GluaSprig.ToDecimalFunc d (.bool true) = 1 ∧
    GluaSprig.ToDecimalFunc d .nil = 0 ∧
    GluaSprig.ToDecimalFunc d (.str "177") = 127 ∧
    GluaSprig.ToDecimalFunc d (.str "8") = 0 :=
  ⟨fun _ => rfl, fun _ => rfl, rfl, rfl, rfl, fun _ => rfl,
   rfl, rfl, rfl, rfl⟩

/-- C8: table arguments holding byte or integer sequences (BytesToString,
BytesToRune and RuneToBytes of glua-runes, seq of glua-sprig) are iterated
in table order with every non-Number entry silently skipped: each collected
native argument list is exactly the image of the numeric entries, in
order, and every collection is a total function, so a non-numeric entry
never causes a failure. -/
theorem C8_table_args_skip_nonnumeric :
    (∀ entries : List (LV × LV),
      GluaRunes.bytesFromTable entries =
        (numEntries entries).map
          (fun p => GluaRunes.toByte (truncNum p.1 p.2))) ∧
    (∀ entries : List (LV × LV),
      GluaSprig.seqParams entries =
        (numEntries entries).map (fun p => truncNum p.1 p.2)) ∧
    (∀ (encodeRune : Int → List Nat) (entries : List (LV × LV)),
      GluaRunes.runeToBytesBuf encodeRune entries =
        ((numEntries entries).map
          (fun p => encodeRune (truncNum p.1 p.2))).flatten) ∧
    (∀ entries : List (LV × LV),
      GluaRunes.BytesToString entries = GluaRunes.bytesFromTable entries) ∧
    (∀ (decodeRune : List Nat → Option Int) (entries : List (LV × LV)),
      GluaRunes.BytesToRune decodeRune entries =
        (match decodeRune (GluaRunes.bytesFromTable entries) with
         | none => LV.nil
         | some r => LV.num r 0)) ∧
    (∀ (encodeRune : Int → List Nat) (entries : List (LV × LV)),
      GluaRunes.RuneToBytes encodeRune entries =
        .table (GluaJson.arrEntriesFrom 1
          (((numEntries entries).map
              (fun p => encodeRune (truncNum p.1 p.2))).flatten.map
            (fun b => LV.num (b : Int) 0)))) := by
  have hgen : ∀ (β : Type) (g : Int → Nat → List β) (entries : List (LV × LV))
      (acc : List β),
      entries.foldl
          (fun acc kv =>
            match kv.2 with | .num m e => acc ++ g m e | _ => acc) acc =
        acc ++ ((numEntries entries).map (fun p => g p.1 p.2)).flatten := by
    intro β g entries
    induction entries with
    | nil => intro acc; simp [numEntries]
    | cons hd tl ih =>
      intro acc
      obtain ⟨k, v⟩ := hd
      cases v with
      | num m e =>
        simp only [numEntries, List.foldl_cons, List.map_cons,
          List.filterMap_cons] at ih ⊢
        rw [ih]
        simp [List.append_assoc]
      | nil =>
        simp only [numEntries, List.foldl_cons, List.map_cons,
          List.filterMap_cons] at ih ⊢
        rw [ih]
      | bool b =>
        simp only [numEntries, List.foldl_cons, List.map_cons,
          List.filterMap_cons] at ih ⊢
        rw [ih]
      | str sx =>
        simp only [numEntries, List.foldl_cons, List.map_cons,
          List.filterMap_cons] at ih ⊢
        rw [ih]
      | table kvs =>
        simp only [numEntries, List.foldl_cons, List.map_cons,
          List.filterMap_cons] at ih ⊢
        rw [ih]
  have hsingle : ∀ (β γ : Type) (f : γ → β) (l : List γ),
      (l.map (fun p => [f p])).flatten = l.map f := by
    intro β γ f l
    induction l with
    | nil => rfl
    | cons a t ih => simp [ih]
  have hbuf : ∀ (encodeRune : Int → List Nat) (entries : List (LV × LV)),
      GluaRunes.runeToBytesBuf encodeRune entries =
        ((numEntries entries).map
          (fun p => encodeRune (truncNum p.1 p.2))).flatten := by
    intro encodeRune entries
    have := hgen Nat (fun m e => encodeRune (truncNum m e)) entries []
    simpa [GluaRunes.runeToBytesBuf] using this
  refine ⟨?_, ?_, hbuf, fun entries => rfl, fun decodeRune entries => rfl, ?_⟩
  · intro entries
    have := hgen Nat (fun m e => [GluaRunes.toByte (truncNum m e)]) entries []
    simpa [GluaRunes.bytesFromTable, hsingle] using this
  · intro entries
    have := hgen Int (fun m e => [truncNum m e]) entries []
    simpa [GluaSprig.seqParams, hsingle] using this
  · intro encodeRune entries
    rw [GluaRunes.RuneToBytes, hbuf]

/-- C10 counterexample: RuneRange is not total: on the string Hello with
start 4 and end 2 the clamped bounds are start 3 and end 1, the slice
bounds are invalid, and the call faults (the Go slice expression panics),
returning no string. -/
theorem C10_counterexample :
    GluaRunes.RuneRange "Hello" 4 2 = none ∧
    GluaRunes.runeRangeClamp 5 4 2 = (3, 1) := by
  decide

/-- C10 amended: the clamping of RuneRange always yields 0 ≤ start ≤
runeLen and 0 ≤ end ≤ runeLen, but not start ≤ end; the call returns a
string exactly when the clamped start is at most the clamped end, and
faults otherwise (for example start=4, end=2 on Hello). -/
theorem C10_runeRange_amended (s : String) (a b : Int) :
    (0 ≤ (GluaRunes.runeRangeClamp s.data.length a b).1 ∧
      (GluaRunes.runeRangeClamp s.data.length a b).1 ≤ s.data.length ∧
      0 ≤ (GluaRunes.runeRangeClamp s.data.length a b).2 ∧
      (GluaRunes.runeRangeClamp s.data.length a b).2 ≤ s.data.length) ∧
    ((GluaRunes.RuneRange s a b).isSome = true ↔
      (GluaRunes.runeRangeClamp s.data.length a b).1 ≤
        (GluaRunes.runeRangeClamp s.data.length a b).2) := by
  constructor
  · simp only [GluaRunes.runeRangeClamp]
    split_ifs <;> simp_all
  · rw [GluaRunes.RuneRange]
    split_ifs with h
    · simpa using h
    · simpa using h

/-- C9 counterexample: not every binding catches a fault of the wrapped
call at the binding boundary: in glua-strings, a failing script callback
makes callFunc_Rune_ret_Bool panic inside strings.FieldsFunc and the
FieldsFunc binding installs no recover, so the outcome is an escaping
panic, not a raised script-level condition. -/
theorem C9_counterexample :
    GluaStrings.FieldsFunc "a" (fun _ => .error "boom") = .panicked "boom" ∧
    (GluaStrings.FieldsFunc "a" (fun _ => .error "boom")).isRaised = false :=
  ⟨rfl, rfl⟩

/-- C9 amended: the glua-sprig bindings that wrap a sprig call install a
deferred recover and re-surface a panic of the wrapped call as a raised
script error prefixed with the function name and carrying the original
message; the glua-strings callback bindings instead turn a callback
failure into a panic that escapes the binding boundary uncaught. -/
theorem C9_panic_handling_amended :
    (∀ (fn : Int → String → PanicOr String) (p0 : Int) (p1 m : String),
      fn p0 p1 = .panic m →
      GluaSprig.AbbrevFunc fn p0 p1 = .raised ("abbrev: " ++ m)) ∧
    (∀ (fn : String → String → PanicOr (Except String String)) (p0 p1 m),
      fn p0 p1 = .panic m →
      GluaSprig.EncryptAESFunc fn p0 p1 = .raised ("encryptAES: " ++ m)) ∧
    (∀ (fn : List Int → PanicOr String) (entries : List (LV × LV)) (m : String),
      fn (GluaSprig.seqParams entries) = .panic m →
      GluaSprig.SeqFunc fn entries = .raised ("seq: " ++ m)) ∧
    (∀ (s : String) (f : Char → Except String Bool) (m : String),
      GluaStrings.fieldsFuncFlags f s.data = .panic m →
      GluaStrings.FieldsFunc s f = .panicked m ∧
        (GluaStrings.FieldsFunc s f).isRaised = false) := by
  refine ⟨?_, ?_, ?_, ?_⟩
  · intro fn p0 p1 m h; simp [GluaSprig.AbbrevFunc, h]
  · intro fn p0 p1 m h; simp [GluaSprig.EncryptAESFunc, h]
  · intro fn entries m h; simp [GluaSprig.SeqFunc, h]
  · intro s f m h
    constructor
    · simp [GluaStrings.FieldsFunc, h]
    · simp [GluaStrings.FieldsFunc, h, Outcome.isRaised]

/-- Witness for C9 amended: a panicking sprig abbrev call is re-raised with
its message, and a failing glua-strings callback escapes as a panic. -/
theorem C9_panic_handling_amended_witness :
    GluaSprig.AbbrevFunc (fun _ _ => .panic "sprig fault") 0 "x" =
        .raised ("abbrev: " ++ "sprig fault") ∧
    GluaStrings.FieldsFunc "ab" (fun _ => .error "cb") = .panicked "cb" ∧
    (GluaStrings.FieldsFunc "ab" (fun _ => .error "cb")).isRaised = false :=
  ⟨C9_panic_handling_amended.1 (fun _ _ => .panic "sprig fault") 0 "x"
      "sprig fault" rfl,
   (C9_panic_handling_amended.2.2.2 "ab" (fun _ => .error "cb") "cb" rfl).1,
   (C9_panic_handling_amended.2.2.2 "ab" (fun _ => .error "cb") "cb" rfl).2⟩

namespace GluaHeap

theorem unvis_card_lt {h : Heap} {path : List Nat} {id : Nat}
    (hid : id < List.length h) (hnp : id ∉ path) :
    ((Finset.range (List.length h)).filter (fun i => i ∉ id :: path)).card <
      ((Finset.range (List.length h)).filter (fun i => i ∉ path)).card := by
  apply Finset.card_lt_card
  constructor
  · intro x hx
    simp only [Finset.mem_filter, Finset.mem_range, List.mem_cons] at hx ⊢
    exact ⟨hx.1, fun hc => hx.2 (Or.inr hc)⟩
  · intro hsub
    have hidmem : id ∈ (Finset.range (List.length h)).filter
        (fun i => i ∉ path) := by
      simp only [Finset.mem_filter, Finset.mem_range]
      exact ⟨hid, hnp⟩
    have := hsub hidmem
    simp only [Finset.mem_filter, Finset.mem_range, List.mem_cons] at this
    exact this.2 (Or.inl trivial)

theorem encodeHArr_isSome
    (enc : HLV → Option (Except String (List Char))) :
    ∀ ents : List (HLV × HLV),
      (∀ kv ∈ ents, (enc kv.2).isSome = true) →
      (encodeHArr enc ents).isSome = true := by
  intro ents
  induction ents with
  | nil => intro _; rfl
  | cons hd tl ih =>
    obtain ⟨k, v⟩ := hd
    intro hall
    have hv := hall (k, v) (List.mem_cons_self _ _)
    have htl := ih (fun kv hm => hall kv (List.mem_cons_of_mem _ hm))
    rw [encodeHArr]
    cases henc : enc v with
    | none => rw [henc] at hv; exact absurd hv (by simp)
    | some r =>
      cases r with
      | error e => rfl
      | ok s =>
        cases hrec : encodeHArr enc tl with
        | none => rw [hrec] at htl; exact absurd htl (by simp)
        | some r2 => cases r2 <;> rfl

theorem encodeHObj_isSome
    (enc : HLV → Option (Except String (List Char))) :
    ∀ ents : List (HLV × HLV),
      (∀ kv ∈ ents, (enc kv.2).isSome = true) →
      (encodeHObj enc ents).isSome = true := by
  intro ents
  induction ents with
  | nil => intro _; rfl
  | cons hd tl ih =>
    obtain ⟨k, v⟩ := hd
    intro hall
    have hv := hall (k, v) (List.mem_cons_self _ _)
    have htl := ih (fun kv hm => hall kv (List.mem_cons_of_mem _ hm))
    rw [encodeHObj]
    cases henc : enc v with
    | none => rw [henc] at hv; exact absurd hv (by simp)
    | some r =>
      cases r with
      | error e => rfl
      | ok s =>
        cases hrec : encodeHObj enc tl with
        | none => rw [hrec] at htl; exact absurd htl (by simp)
        | some r2 => cases r2 <;> rfl

theorem encodeH_isSome :
    ∀ (fuel : Nat) (h : Heap) (path : List Nat) (v : HLV),
      ((Finset.range (List.length h)).filter (fun i => i ∉ path)).card < fuel →
      (encodeH fuel h path v).isSome = true := by
  intro fuel
  induction fuel with
  | zero => intro h path v hcard; omega
  | succ fuel ih =>
    intro h path v hcard
    cases v with
    | nil => rfl
    | bool b => cases b <;> rfl
    | num n => rfl
    | str s => rfl
    | tbl id =>
      rw [encodeH]
      by_cases hp : id ∈ path
      · rw [if_pos hp]; rfl
      · rw [if_neg hp]
        by_cases hid : id < List.length h
        · have hlt := unvis_card_lt (h := h) hid hp
          have hsub : ∀ kv ∈ entsOf h id,
              (encodeH fuel h (id :: path) kv.2).isSome = true := by
            intro kv _
            exact ih h (id :: path) kv.2 (by omega)
          cases hcl : classifyH (entsOf h id) with
          | arr =>
            have := encodeHArr_isSome (encodeH fuel h (id :: path))
              (entsOf h id) hsub
            cases hi : encodeHArr (encodeH fuel h (id :: path))
                (entsOf h id) with
            | none => rw [hi] at this; exact absurd this (by simp)
            | some r => cases r <;> rfl
          | obj =>
            have := encodeHObj_isSome (encodeH fuel h (id :: path))
              (entsOf h id) hsub
            cases hi : encodeHObj (encodeH fuel h (id :: path))
                (entsOf h id) with
            | none => rw [hi] at this; exact absurd this (by simp)
            | some r => cases r <;> rfl
          | sparse => rfl
          | mixed => rfl
        · have hempty : entsOf h id = [] := by
            simp only [entsOf]
            rw [List.get?_eq_none.mpr (by omega)]
            rfl
          rw [hempty]
          rfl
end GluaHeap

namespace GluaHeap

open GluaJson

theorem encodeHArr_ok (enc : HLV → Option (Except String (List Char))) :
    ∀ ents : List (HLV × HLV),
      (∀ kv ∈ ents, ∃ cs, enc kv.2 = some (.ok cs)) →
      ∃ ss, encodeHArr enc ents = some (.ok ss) := by
  intro ents
  induction ents with
  | nil => intro _; exact ⟨[], rfl⟩
  | cons hd tl ih =>
    obtain ⟨k, v⟩ := hd
    intro hall
    obtain ⟨cs, hcs⟩ := hall (k, v) (List.mem_cons_self _ _)
    obtain ⟨ss, hss⟩ := ih (fun kv hm => hall kv (List.mem_cons_of_mem _ hm))
    refine ⟨cs :: ss, ?_⟩
    rw [encodeHArr, hcs, hss]

theorem encodeHObj_ok (enc : HLV → Option (Except String (List Char))) :
    ∀ ents : List (HLV × HLV),
      (∀ kv ∈ ents, ∃ cs, enc kv.2 = some (.ok cs)) →
      ∃ ss, encodeHObj enc ents = some (.ok ss) := by
  intro ents
  induction ents with
  | nil => intro _; exact ⟨[], rfl⟩
  | cons hd tl ih =>
    obtain ⟨k, v⟩ := hd
    intro hall
    obtain ⟨cs, hcs⟩ := hall (k, v) (List.mem_cons_self _ _)
    obtain ⟨ss, hss⟩ := ih (fun kv hm => hall kv (List.mem_cons_of_mem _ hm))
    refine ⟨(keyCharsH k ++ ':' :: cs) :: ss, ?_⟩
    rw [encodeHObj, hcs, hss]

theorem entsOf_empty_of_ge {h : Heap} {id : Nat}
    (hid : List.length h ≤ id) : entsOf h id = [] := by
  simp only [entsOf]
  rw [List.get?_eq_none.mpr hid]
  rfl

theorem wellShaped_entsOf {h : Heap} (hws : wellShapedB h = true) (id : Nat) :
    classifyH (entsOf h id) = KeyShape.arr ∨
      classifyH (entsOf h id) = KeyShape.obj := by
  by_cases hid : id < List.length h
  · have hget : List.get? h id = some (h.get ⟨id, hid⟩) := List.get?_eq_get hid
    have hmem : h.get ⟨id, hid⟩ ∈ h := List.get_mem h id hid
    have := List.all_eq_true.mp hws _ hmem
    have hents : entsOf h id = h.get ⟨id, hid⟩ := by
      simp only [entsOf, hget]
      rfl
    rw [hents]
    simpa using this
  · rw [entsOf_empty_of_ge (by omega)]
    left
    rfl

theorem encodeH_ok :
    ∀ (fuel : Nat) (h : Heap) (path : List Nat) (v : HLV),
      ((Finset.range (List.length h)).filter (fun i => i ∉ path)).card < fuel →
      wellShapedB h = true →
      (∀ i, v = HLV.tbl i → ∀ j, Relation.ReflTransGen (ContainsH h) i j →
        j ∉ path ∧ ¬Relation.TransGen (ContainsH h) j j) →
      ∃ cs, encodeH fuel h path v = some (.ok cs) := by
  intro fuel
  induction fuel with
  | zero => intro h path v hcard; omega
  | succ fuel ih =>
    intro h path v hcard hws hyp
    cases v with
    | nil => exact ⟨_, rfl⟩
    | bool b => cases b <;> exact ⟨_, rfl⟩
    | num n => exact ⟨_, rfl⟩
    | str s => exact ⟨_, rfl⟩
    | tbl id =>
      have hgood := hyp id rfl
      have hidp : id ∉ path := (hgood id .refl).1
      rw [encodeH, if_neg hidp]
      have hsub : ∀ kv ∈ entsOf h id,
          ∃ cs, encodeH fuel h (id :: path) kv.2 = some (.ok cs) := by
        intro kv hm
        by_cases hid : id < List.length h
        · refine ih h (id :: path) kv.2 ?_ hws ?_
          · have := unvis_card_lt (h := h) hid hidp
            omega
          · intro i' heq j hreach
            have hstep : ContainsH h id i' := by
              refine ⟨kv.1, ?_⟩
              have : kv = (kv.1, HLV.tbl i') := by
                rw [← heq]
              rw [← this]
              exact hm
            have hreach0 : Relation.ReflTransGen (ContainsH h) id j :=
              Relation.ReflTransGen.head hstep hreach
            have hj := hgood j hreach0
            refine ⟨?_, hj.2⟩
            intro hjc
            rcases List.mem_cons.mp hjc with rfl | hjp
            · exact (hgood j Relation.ReflTransGen.refl).2
                (Relation.TransGen.head' hstep hreach)
            · exact hj.1 hjp
        · rw [entsOf_empty_of_ge (by omega)] at hm
          simp at hm
      rcases wellShaped_entsOf hws id with hcl | hcl
      · obtain ⟨ss, hss⟩ :=
          encodeHArr_ok (encodeH fuel h (id :: path)) (entsOf h id) hsub
        rw [hcl, hss]
        exact ⟨_, rfl⟩
      · obtain ⟨ss, hss⟩ :=
          encodeHObj_ok (encodeH fuel h (id :: path)) (entsOf h id) hsub
        rw [hcl, hss]
        exact ⟨_, rfl⟩

end GluaHeap

namespace GluaHeap

open GluaJson

theorem encodeHArr_first_error
    (enc : HLV → Option (Except String (List Char))) (P : HLV → Prop)
    (E : String)
    (hbad : ∀ w, P w → enc w = some (.error E))
    (hgood : ∀ w, ¬P w → ∃ cs, enc w = some (.ok cs)) :
    ∀ ents : List (HLV × HLV), (∃ kv ∈ ents, P kv.2) →
      encodeHArr enc ents = some (.error E) := by
  intro ents
  induction ents with
  | nil =>
    rintro ⟨kv, hm, _⟩
    simp at hm
  | cons hd tl ih =>
    obtain ⟨k, v⟩ := hd
    rintro ⟨kv, hm, hP⟩
    rw [encodeHArr]
    by_cases hPv : P v
    · rw [hbad v hPv]
    · obtain ⟨cs, hcs⟩ := hgood v hPv
      rw [hcs]
      have hex : ∃ kv ∈ tl, P kv.2 := by
        rcases List.mem_cons.mp hm with heq | hm'
        · subst heq
          exact absurd hP hPv
        · exact ⟨kv, hm', hP⟩
      rw [ih hex]

theorem encodeHObj_first_error
    (enc : HLV → Option (Except String (List Char))) (P : HLV → Prop)
    (E : String)
    (hbad : ∀ w, P w → enc w = some (.error E))
    (hgood : ∀ w, ¬P w → ∃ cs, enc w = some (.ok cs)) :
    ∀ ents : List (HLV × HLV), (∃ kv ∈ ents, P kv.2) →
      encodeHObj enc ents = some (.error E) := by
  intro ents
  induction ents with
  | nil =>
    rintro ⟨kv, hm, _⟩
    simp at hm
  | cons hd tl ih =>
    obtain ⟨k, v⟩ := hd
    rintro ⟨kv, hm, hP⟩
    rw [encodeHObj]
    by_cases hPv : P v
    · rw [hbad v hPv]
    · obtain ⟨cs, hcs⟩ := hgood v hPv
      rw [hcs]
      have hex : ∃ kv ∈ tl, P kv.2 := by
        rcases List.mem_cons.mp hm with heq | hm'
        · subst heq
          exact absurd hP hPv
        · exact ⟨kv, hm', hP⟩
      rw [ih hex]

theorem encodeH_cycle :
    ∀ (fuel : Nat) (h : Heap) (path : List Nat) (i : Nat),
      ((Finset.range (List.length h)).filter (fun x => x ∉ path)).card < fuel →
      wellShapedB h = true →
      (∃ j, Relation.ReflTransGen (ContainsH h) i j ∧
        (j ∈ path ∨ Relation.TransGen (ContainsH h) j j)) →
      encodeH fuel h path (.tbl i) =
        some (.error "cannot encode recursively nested tables") := by
  intro fuel
  induction fuel with
  | zero => intro h path i hcard; omega
  | succ fuel ih =>
    intro h path i hcard hws hyp
    by_cases hp : i ∈ path
    · rw [encodeH, if_pos hp]
    · obtain ⟨j, hreach, hbadj⟩ := hyp
      have hstep : ∃ t, ContainsH h i t ∧ ∃ j',
          Relation.ReflTransGen (ContainsH h) t j' ∧
            (j' ∈ i :: path ∨ Relation.TransGen (ContainsH h) j' j') := by
        rcases hreach.cases_head with heq | ⟨t, hit, htj⟩
        · subst heq
          rcases hbadj with hmem | hcyc
          · exact absurd hmem hp
          · rcases Relation.TransGen.head'_iff.mp hcyc with ⟨t, hit, hti⟩
            exact ⟨t, hit, i, hti, Or.inl (List.mem_cons_self _ _)⟩
        · rcases hbadj with hmem | hcyc
          · exact ⟨t, hit, j, htj, Or.inl (List.mem_cons_of_mem _ hmem)⟩
          · exact ⟨t, hit, j, htj, Or.inr hcyc⟩
      obtain ⟨t, hct, j', hreach', hbad'⟩ := hstep
      obtain ⟨kt, hktmem⟩ := hct
      have hid : i < List.length h := by
        by_contra hcon
        rw [entsOf_empty_of_ge (by omega)] at hktmem
        simp at hktmem
      have hcard' : ((Finset.range (List.length h)).filter
          (fun x => x ∉ i :: path)).card < fuel := by
        have := unvis_card_lt (h := h) hid hp
        omega
      rw [encodeH, if_neg hp]
      have hbadenc : ∀ w,
          (∃ t', w = HLV.tbl t' ∧ ∃ j'',
            Relation.ReflTransGen (ContainsH h) t' j'' ∧
              (j'' ∈ i :: path ∨ Relation.TransGen (ContainsH h) j'' j'')) →
          encodeH fuel h (i :: path) w =
            some (.error "cannot encode recursively nested tables") := by
        rintro w ⟨t', rfl, hbd⟩
        exact ih h (i :: path) t' hcard' hws hbd
      have hgoodenc : ∀ w,
          ¬(∃ t', w = HLV.tbl t' ∧ ∃ j'',
            Relation.ReflTransGen (ContainsH h) t' j'' ∧
              (j'' ∈ i :: path ∨ Relation.TransGen (ContainsH h) j'' j'')) →
          ∃ cs, encodeH fuel h (i :: path) w = some (.ok cs) := by
        intro w hng
        refine encodeH_ok fuel h (i :: path) w hcard' hws ?_
        intro i' heq j'' hr
        push_neg at hng
        have := hng i' heq j'' hr
        exact ⟨this.1, this.2⟩
      have hex : ∃ kv ∈ entsOf h i,
          (∃ t', kv.2 = HLV.tbl t' ∧ ∃ j'',
            Relation.ReflTransGen (ContainsH h) t' j'' ∧
              (j'' ∈ i :: path ∨ Relation.TransGen (ContainsH h) j'' j'')) :=
        ⟨(kt, HLV.tbl t), hktmem, t, rfl, j', hreach', hbad'⟩
      rcases wellShaped_entsOf hws i with hcl | hcl
      · rw [hcl,
          encodeHArr_first_error (encodeH fuel h (i :: path)) _ _ hbadenc
            hgoodenc (entsOf h i) hex]
      · rw [hcl,
          encodeHObj_first_error (encodeH fuel h (i :: path)) _ _ hbadenc
            hgoodenc (entsOf h i) hex]

end GluaHeap

/-- C3 counterexample: a Table that directly contains itself but has
mixed/invalid key shape fails with the mixed-or-invalid-key-types message,
not with a message containing recursively nested: the key-shape scan of a
table precedes the traversal of its values, so the revisit is never
reached. -/
theorem C3_counterexample :
    GluaHeap.ContainsH [[(.num 1, .num 5), (.str "x", .tbl 0)]] 0 0 ∧
    GluaHeap.EncodeHeap [[(.num 1, .num 5), (.str "x", .tbl 0)]] (.tbl 0) =
      .error "cannot encode mixed or invalid key types" ∧
    ("cannot encode mixed or invalid key types" : String) ≠
      "cannot encode recursively nested tables" :=
  ⟨⟨.str "x", by decide⟩, rfl, by decide⟩

/-- C3 amended: encoding over the heap model always terminates (the
fuel supplied by the top-level entry point is sufficient for every heap
and value, so detection happens during the traversal rather than looping
forever); and for every heap whose tables all have valid key shape, a
Table that directly or transitively contains itself fails with exactly the
recursively-nested error message.  A self-containing Table with invalid key
shape instead fails with the corresponding key-shape message. -/
theorem C3_recursive_nested_amended :
    (∀ (h : GluaHeap.Heap) (v : GluaHeap.HLV),
      (GluaHeap.encodeH (List.length h + 1) h [] v).isSome = true) ∧
    (∀ (h : GluaHeap.Heap) (i : Nat), GluaHeap.wellShapedB h = true →
      GluaHeap.HasCycleFrom h i →
      GluaHeap.EncodeHeap h (.tbl i) =
        .error "cannot encode recursively nested tables") := by
  have hbound : ∀ h : GluaHeap.Heap,
      ((Finset.range (List.length h)).filter
        (fun i => i ∉ ([] : List Nat))).card < List.length h + 1 := by
    intro h
    have h1 : ((Finset.range (List.length h)).filter
        (fun i => i ∉ ([] : List Nat))).card ≤
        (Finset.range (List.length h)).card := Finset.card_filter_le _ _
    have h2 : (Finset.range (List.length h)).card = List.length h :=
      Finset.card_range _
    omega
  constructor
  · intro h v
    exact GluaHeap.encodeH_isSome (List.length h + 1) h [] v (hbound h)
  · intro h i hws hcyc
    obtain ⟨j, hr, hc⟩ := hcyc
    have hrun := GluaHeap.encodeH_cycle (List.length h + 1) h [] i (hbound h)
      hws ⟨j, hr, Or.inr hc⟩
    rw [GluaHeap.EncodeHeap, hrun]

/-- Witness for C3 amended: the one-table heap whose table holds itself
under a string key is well shaped and cyclic, and encodes to the
recursively-nested error. -/
theorem C3_recursive_nested_amended_witness :
    GluaHeap.wellShapedB [[(.str "a", .tbl 0)]] = true ∧
    GluaHeap.HasCycleFrom [[(.str "a", .tbl 0)]] 0 ∧
    GluaHeap.EncodeHeap [[(.str "a", .tbl 0)]] (.tbl 0) =
      .error "cannot encode recursively nested tables" :=
  ⟨by decide, ⟨0, .refl, .single ⟨.str "a", by decide⟩⟩,
   C3_recursive_nested_amended.2 _ 0 (by decide)
     ⟨0, .refl, .single ⟨.str "a", by decide⟩⟩⟩
